import Mathlib

/-!
# Verification of the e3nn-jax `IrrepsArray` core (`e3nn_jax/_irreps_array.py`)

A shallow embedding of the typed-tensor container (`IrrepsArray`), its lazy
block decomposition, the `convert` layout-repacking algorithm, the reductions
(`mean`/`sum`/`norm`) and the arithmetic operators with their equivariance
guards, together with proofs of the spec claims about them.

Modelling conventions:
* Numeric arrays are row-major flat lists of rationals together with an
  explicit shape (`Arr`).  All operations in the source act uniformly on the
  leading axes and structurally on the last one or two axes, which this model
  captures exactly.  Floating-point rounding is not modelled (the claims under
  study are structural / exact identities); the host runtime's square root is
  an explicit function parameter where the source calls `jnp.sqrt`.
* Fallible Python code (raised `ValueError` / `AssertionError` / `TypeError` /
  `IndexError`) is modelled with `Option` / `Except`: `none` / `.error e`
  means the corresponding Python call raises.
* The symbolic irreps algebra (`Irreps`, out of scope for the spec and not
  under the sources provided) is modelled from the spec: an ordered list of
  `(multiplicity, irrep-tag)` pairs, each tag carrying an angular order `l`
  (dimension `2l+1`) and a parity; `dim`, `num_irreps`, `lmax`, `slices` and
  `simplify` (merge adjacent equal tags, drop zero multiplicities) follow
  the spec's §3/§6 descriptions.
-/

/-- Modelled from the spec: an irreducible-representation tag of O(3), an
opaque tag with a fixed dimension determined by the angular order `l`
(`dim = 2l+1`) and a parity (`even = true` for `e`, `false` for `o`).
The symbolic irrep algebra itself is an external collaborator (spec §1, §6). -/
structure Ir where
  l : Nat
  even : Bool
deriving DecidableEq

/-- The scalar even irrep `"0e"`. -/
def Ir0e : Ir := ⟨0, true⟩

/-- The vector irrep `"1e"`. -/
def Ir1e : Ir := ⟨1, true⟩

/-- Dimension of an irrep: `2l+1`. -/
def irDim (i : Ir) : Nat := 2 * i.l + 1

/-- One entry of an irreps spec: a multiplicity paired with an irrep tag. -/
abbrev MulIr := Nat × Ir

/-- Modelled from the spec: `IrrepsSpec`, an ordered sequence of
`(multiplicity, irrep)` pairs (spec §3). -/
abbrev Irreps := List MulIr

/-- `Irreps.dim`: total flat dimension, `Σ mul * ir.dim`. -/
def irrepsDim (I : Irreps) : Nat := (I.map (fun mi => mi.1 * irDim mi.2)).sum

/-- `Irreps.num_irreps`: total number of multiplicity channels, `Σ mul`. -/
def numIrreps (I : Irreps) : Nat := (I.map (fun mi => mi.1)).sum

/-- Modelled from the spec: `Irreps.lmax`, the maximum angular order among the
entries (spec §6; the behaviour on an empty spec is unspecified there, we
take `0`). -/
def lmaxI (I : Irreps) : Nat := (I.map (fun mi => mi.2.l)).foldr max 0

/-- Merge adjacent entries carrying the same irrep tag (each maximal run of
equal tags collapses to one entry with the summed multiplicity). -/
def mergeAdj : Irreps → Irreps
  | [] => []
  | (m1, i1) :: r =>
    match mergeAdj r with
    | [] => [(m1, i1)]
    | (m2, i2) :: r2 =>
      if i1 = i2 then (m1 + m2, i2) :: r2 else (m1, i1) :: (m2, i2) :: r2

/-- Modelled from the spec: `Irreps.simplify` — drop zero-multiplicity
entries and merge adjacent entries with identical irrep tags (spec §3). -/
def simplifyI (I : Irreps) : Irreps := mergeAdj (I.filter (fun mi => mi.1 ≠ 0))

/-- Expansion of an irreps spec into the list of its irrep tags counted with
multiplicity.  Two specs simplify equally iff their expansions agree; this is
the key abstraction for the `convert` repacking proof. -/
def expandIr (I : Irreps) : List Ir := (I.map (fun mi => List.replicate mi.1 mi.2)).flatten

/-- Per-entry offsets into the flat dimension (`Irreps.slices`), paired with
the entries. -/
def offsetList : Irreps → Nat → List (Nat × MulIr)
  | [], _ => []
  | mi :: r, o => (o, mi) :: offsetList r (o + mi.1 * irDim mi.2)

/-! ## Flat numeric arrays

`Arr` models a `jnp.ndarray`: a shape and its row-major flat data. -/

/-- A numeric n-dimensional array: explicit shape plus row-major flat data. -/
structure Arr where
  shape : List Nat
  data : List ℚ
deriving DecidableEq

/-- An array is well formed when its data has exactly `shape.prod` entries
(always true of a real `jnp.ndarray`). -/
def ArrWf (a : Arr) : Prop := a.data.length = a.shape.prod

instance (a : Arr) : Decidable (ArrWf a) := by unfold ArrWf; infer_instance

/-- Size of the last axis (`shape[-1]`); `0` for a 0-dimensional array. -/
def lastD (a : Arr) : Nat := a.shape.getLastD 0

/-- Size of the second-to-last axis (`shape[-2]`). -/
def dim2 (a : Arr) : Nat := a.shape.dropLast.getLastD 0

/-- `jnp.zeros(shape)`. -/
def zerosArr (shape : List Nat) : Arr := ⟨shape, List.replicate shape.prod 0⟩

/-- `jnp.ones(shape)`. -/
def onesArr (shape : List Nat) : Arr := ⟨shape, List.replicate shape.prod 1⟩

/-- Split a flat list into consecutive chunks of `k` elements (structural
recursion on a fuel bounded by the list length). -/
def chunkAux (k : Nat) : Nat → List ℚ → List (List ℚ)
  | _, [] => []
  | 0, _ :: _ => []
  | fuel + 1, x :: xs => (x :: xs).take k :: chunkAux k fuel ((x :: xs).drop k)

/-- Split a flat list into consecutive chunks of `k` elements. -/
def chunk (k : Nat) (l : List ℚ) : List (List ℚ) :=
  if k = 0 then [] else chunkAux k l.length l

/-- Rows of an array along its last axis, one row per leading index.
A zero-width last axis still yields `L` empty rows. -/
def rowsPad (L : Nat) (a : Arr) : List (List ℚ) :=
  if lastD a = 0 then List.replicate L [] else chunk (lastD a) a.data

/-- Data of `jnp.concatenate(as, axis=-1)` for arrays sharing `L` leading
rows: rows are concatenated pointwise. -/
def concatLastData (L : Nat) (as : List Arr) : List ℚ :=
  (as.foldr (fun a acc => List.zipWith (· ++ ·) (rowsPad L a) acc) (List.replicate L [])).flatten

/-- `jnp.concatenate(as, axis=-1)`: shape gains the sum of last dimensions. -/
def concatLastA (leading : List Nat) (as : List Arr) : Arr :=
  ⟨leading ++ [(as.map lastD).sum], concatLastData leading.prod as⟩

/-- `jnp.concatenate([a, b], axis=-2)` for arrays of shape
`leading ++ [m, d]`: row-major blocks of the last two axes concatenate. -/
def cat2 (a b : Arr) : Arr :=
  ⟨a.shape.dropLast.dropLast ++ [dim2 a + dim2 b, lastD a],
   (List.zipWith (· ++ ·) (chunk (dim2 a * lastD a) a.data) (chunk (dim2 b * lastD b) b.data)).flatten⟩

/-- `jnp.split(a, [k], axis=-2)` for an array of shape `leading ++ [m, d]`:
the first `k` and the remaining `m - k` multiplicity rows. -/
def splitN2 (a : Arr) (k : Nat) : Arr × Arr :=
  (⟨a.shape.dropLast.dropLast ++ [k, lastD a],
    ((chunk (dim2 a * lastD a) a.data).map (fun row => row.take (k * lastD a))).flatten⟩,
   ⟨a.shape.dropLast.dropLast ++ [dim2 a - k, lastD a],
    ((chunk (dim2 a * lastD a) a.data).map (fun row => row.drop (k * lastD a))).flatten⟩)

/-- Slice `[o, o+w)` of the last axis, then reshape the slice to
`leading ++ [m, d]` (with `w = m * d`): the derivation of one block from the
flat buffer (`IrrepsArray.list`). -/
def sliceBlock (a : Arr) (o m d : Nat) : Arr :=
  ⟨a.shape.dropLast ++ [m, d],
   ((chunk (lastD a) a.data).map (fun row => (row.take (o + m * d)).drop o)).flatten⟩

/-- Elementwise square (`x ** 2`). -/
def squareArr (a : Arr) : Arr := ⟨a.shape, a.data.map (fun q => q * q)⟩

/-- Elementwise addition of equal-shaped arrays (`x + y`). -/
def addArr (a b : Arr) : Arr := ⟨a.shape, List.zipWith (· + ·) a.data b.data⟩

/-- A scalar divided by an array, elementwise (`c / x`). -/
def scalarDivArr (c : ℚ) (a : Arr) : Arr := ⟨a.shape, a.data.map (fun q => c / q)⟩

/-! ## The typed-tensor container (`IrrepsArray`) -/

/-- The `IrrepsArray` container: irreps, flat buffer, and the optional stored
block list (`_list`; `none` means "not yet derived", a `none` entry inside a
stored list is a deterministic-zero sentinel). -/
structure IrrepsArray where
  irreps : Irreps
  array : Arr
  blocks? : Option (List (Option Arr))
deriving DecidableEq

/-- One stored block entry is acceptable for entry `mi` of the spec when it is
`None` or has shape `leading ++ (mul, ir.dim)` (constructor check I2). -/
def blockShapeOkB (leading : List Nat) (x : Option Arr) (mi : MulIr) : Bool :=
  match x with
  | none => true
  | some a => decide (a.shape = leading ++ [mi.1, irDim mi.2])

/-- The validation performed by `IrrepsArray.__init__` (`_perform_checks=True`):
the buffer's last axis must exist and equal `irreps.dim` (I1), and a supplied
block list must have one entry per irreps entry, each of the right shape (I2). -/
def checksOk (I : Irreps) (a : Arr) (bl : Option (List (Option Arr))) : Bool :=
  match a.shape.getLast? with
  | none => false
  | some d =>
    decide (d = irrepsDim I) &&
    (match bl with
     | none => true
     | some l =>
       decide (l.length = I.length) &&
       (List.zip l I).all (fun p => blockShapeOkB a.shape.dropLast p.1 p.2))

/-- `IrrepsArray(irreps, array, list)`: the checked constructor; `none` models
a raised `ValueError`. -/
def mkChecked (I : Irreps) (a : Arr) (bl : Option (List (Option Arr))) : Option IrrepsArray :=
  if checksOk I a bl then some ⟨I, a, bl⟩ else none

/-- Well-formedness of a container: it passes its own construction checks and
its buffer and stored blocks have consistent flat data (what is true of any
value actually built by the Python class). -/
def WF (t : IrrepsArray) : Prop :=
  checksOk t.irreps t.array t.blocks? = true ∧ ArrWf t.array ∧
    (∀ l, t.blocks? = some l → ∀ x ∈ l, ∀ a, x = some a → ArrWf a)

instance (t : IrrepsArray) : Decidable (WF t) := by unfold WF; infer_instance

/-- The lazily derived block view (the `else` branch of the `list` property):
slice the buffer at the offsets implied by the irreps and reshape each slice
to `leading ++ (mul, ir.dim)`; a single-entry spec reshapes the whole buffer. -/
def deriveList (t : IrrepsArray) : List (Option Arr) :=
  match t.irreps with
  | [(m, i)] => [some ⟨t.array.shape.dropLast ++ [m, irDim i], t.array.data⟩]
  | _ =>
    (offsetList t.irreps 0).map (fun p => some (sliceBlock t.array p.1 p.2.1 (irDim p.2.2)))

/-- The `list` property: the cached `_list` when present, otherwise the view
derived from the buffer. -/
def listOf (t : IrrepsArray) : List (Option Arr) :=
  match t.blocks? with
  | some l => l
  | none => deriveList t

/-- `IrrepsArray.from_list(irreps, list, leading_shape)`: validate lengths and
shapes, then build the buffer by reshape-and-concatenate along the last axis,
substituting zero-filled arrays for `None` entries (zero-width buffer if
`irreps.dim == 0`). -/
def from_list (I : Irreps) (l : List (Option Arr)) (leading : List Nat) : Option IrrepsArray :=
  if I.length ≠ l.length then none
  else if ¬ ((List.zip l I).all (fun p => blockShapeOkB leading p.1 p.2)) then none
  else
    mkChecked I
      (if 0 < irrepsDim I then
        concatLastA leading ((List.zip I l).map (fun p =>
          match p.2 with
          | none => zerosArr (leading ++ [p.1.1 * irDim p.1.2])
          | some a => ⟨leading ++ [p.1.1 * irDim p.1.2], a.data⟩))
      else zerosArr (leading ++ [0]))
      (some l)

/-- `IrrepsArray.zeros(irreps, leading_shape)`: all-zero buffer, block list
pre-populated with `None` (deterministic zero) sentinels. -/
def zerosIA (I : Irreps) (leading : List Nat) : IrrepsArray :=
  ⟨I, zerosArr (leading ++ [irrepsDim I]), some (List.replicate I.length none)⟩

/-- `IrrepsArray.ones(irreps, leading_shape)`: all-one buffer, block list of
concrete one-filled blocks. -/
def onesIA (I : Irreps) (leading : List Nat) : IrrepsArray :=
  ⟨I, onesArr (leading ++ [irrepsDim I]),
   some (I.map (fun mi => some (onesArr (leading ++ [mi.1, irDim mi.2]))))⟩

/-! ## Reductions (`_standardize_axis`, `_reduce`, `mean`, `sum`, `norm`) -/

/-- Pointwise sum of a list of rows of length `inner`. -/
def sumRowsQ (inner : Nat) (rows : List (List ℚ)) : List ℚ :=
  rows.foldr (List.zipWith (· + ·)) (List.replicate inner 0)

/-- `jnp.sum(a, axis=i, keepdims=True)`. -/
def reduce1Sum (i : Nat) (a : Arr) : Arr :=
  ⟨a.shape.set i 1,
   ((chunk (a.shape.getD i 1 * (a.shape.drop (i + 1)).prod) a.data).map
     (fun blk => sumRowsQ ((a.shape.drop (i + 1)).prod) (chunk ((a.shape.drop (i + 1)).prod) blk))).flatten⟩

/-- `jnp.mean(a, axis=i, keepdims=True)`. -/
def reduce1Mean (i : Nat) (a : Arr) : Arr :=
  ⟨a.shape.set i 1,
   ((chunk (a.shape.getD i 1 * (a.shape.drop (i + 1)).prod) a.data).map
     (fun blk => (sumRowsQ ((a.shape.drop (i + 1)).prod) (chunk ((a.shape.drop (i + 1)).prod) blk)).map
       (fun q => q / (a.shape.getD i 1 : ℚ)))).flatten⟩

/-- Remove the given (already reduced, size-1) axes from the shape. -/
def squeezeAxes (axes : List Nat) (a : Arr) : Arr :=
  ⟨(a.shape.enum.filter (fun p => decide (p.1 ∉ axes))).map Prod.snd, a.data⟩

/-- A multi-axis reduction with the `keepdims` convention of `jnp`: reduce the
axes one at a time keeping dimensions (exact for sum and mean over ℚ), then
drop the reduced axes if `keepdims` is false. -/
def reduceAxes (single : Nat → Arr → Arr) (axes : List Nat) (kd : Bool) (a : Arr) : Arr :=
  let r := axes.foldl (fun acc i => single i acc) a
  if kd then r else squeezeAxes axes r

/-- `jnp.sum(a, axis=axes, keepdims=kd)`. -/
def jnpSum (a : Arr) (axes : List Nat) (kd : Bool) : Arr := reduceAxes reduce1Sum axes kd a

/-- `jnp.mean(a, axis=axes, keepdims=kd)`. -/
def jnpMean (a : Arr) (axes : List Nat) (kd : Bool) : Arr := reduceAxes reduce1Mean axes kd a

/-- `_standardize_axis(axis, ndim)`: `None` means all axes; otherwise all the
given indices must satisfy `-ndim ≤ i < ndim` (assertion), and the result is
the sorted set of the indices taken modulo `ndim`. -/
def standardizeAxis (axis : Option (List Int)) (ndim : Nat) : Option (List Nat) :=
  match axis with
  | none => some (List.range ndim)
  | some l =>
    if l.all (fun i => decide (-(ndim : Int) ≤ i ∧ i < (ndim : Int))) then
      some ((List.range ndim).filter (fun k => l.any (fun i => decide (i.emod (ndim : Int) = (k : Int)))))
    else none

def reduceStdAux (op : Arr → List Nat → Bool → Arr) (t : IrrepsArray) :
    Nat → List Nat → Bool → Option IrrepsArray
  | _, [], _ => some t
  | 0, _ :: _, _ => none
  | fuel + 1, a0 :: ax0, kd =>
    if (a0 :: ax0).getLastD 0 < t.array.shape.length - 1 then
      mkChecked t.irreps (op t.array (a0 :: ax0) kd)
        (some ((listOf t).map (fun x => x.map (fun b => op b (a0 :: ax0) kd))))
    else
      match reduceStdAux op t fuel (a0 :: ax0).dropLast kd with
      | none => none
      | some t1 =>
        from_list (t1.irreps.map (fun mi => (1, mi.2)))
          ((listOf t1).map (fun x => x.map (fun b => op b [b.shape.length - 2] true)))
          t1.array.shape.dropLast

/-- `_reduce(op, array, axis, keepdims)` on an already-standardized axis list
(the source re-standardizes `axis[:-1]` in its recursive call; standardization
is the identity on the sorted in-range lists produced here, so the recursion
is folded directly, with a structural fuel bounded by the axis count).  If
the last (irrep) axis is not requested, apply `op` to the buffer and every
non-null block; otherwise first reduce the other requested axes, then reduce
each block along its multiplicity axis and rebuild with every multiplicity
collapsed to 1. -/
def reduceStd (op : Arr → List Nat → Bool → Arr) (t : IrrepsArray) (ax : List Nat)
    (kd : Bool) : Option IrrepsArray :=
  reduceStdAux op t ax.length ax kd

/-- `_reduce(op, array, axis, keepdims)`. -/
def reduceIA (op : Arr → List Nat → Bool → Arr) (t : IrrepsArray) (axis : Option (List Int))
    (kd : Bool) : Option IrrepsArray :=
  match standardizeAxis axis t.array.shape.length with
  | none => none
  | some ax => reduceStd op t ax kd

/-- `e3nn.mean(array, axis, keepdims)`. -/
def meanIA (t : IrrepsArray) (axis : Option (List Int)) (kd : Bool) : Option IrrepsArray :=
  reduceIA jnpMean t axis kd

/-- `e3nn.sum(array, axis, keepdims)`. -/
def sumIA (t : IrrepsArray) (axis : Option (List Int)) (kd : Bool) : Option IrrepsArray :=
  reduceIA jnpSum t axis kd

/-- The per-block computation of `norm`: sum of squares over the irrep
dimension axis with a kept size-1 trailing axis, square-rooted (via the host
runtime's square root `sqrtFn`, `jnp.sqrt`) unless `squared`. -/
def normBlock (squared : Bool) (sqrtFn : ℚ → ℚ) (x : Arr) : Arr :=
  let s := reduce1Sum (x.shape.length - 1) (squareArr x)
  if squared then s else ⟨s.shape, s.data.map sqrtFn⟩

/-- `e3nn.norm(array, squared=...)`.  Note the source maps `f` over
`array.list` unguarded: a `None` (deterministic zero) entry raises a
`TypeError` (`None ** 2`), modelled by `none`. -/
def normT (sqrtFn : ℚ → ℚ) (squared : Bool) (t : IrrepsArray) : Option IrrepsArray :=
  match (listOf t).mapM (fun x =>
    match x with
    | none => none
    | some b => some (some (normBlock squared sqrtFn b))) with
  | none => none
  | some l => from_list (t.irreps.map (fun mi => (mi.1, Ir0e))) l t.array.shape.dropLast

/-! ## Arithmetic operators and their equivariance guards -/

/-- Error kinds raised by the operators (spec §7): `equivariance` for the
`"is not equivariant"` `ValueError`s, `divZero` for the deterministic-zero
division `ValueError`, `ambiguous` for the two-non-scalar product
`ValueError`, `shape` for constructor shape failures. -/
inductive Err where
  | equivariance
  | divZero
  | shape
  | ambiguous
deriving DecidableEq

/-- `IrrepsArray.__add__` for two typed tensors: identical irreps required;
per-block addition treats `None` as absent-zero. -/
def addT (x y : IrrepsArray) : Except Err IrrepsArray :=
  if x.irreps ≠ y.irreps then .error .equivariance
  else
    let l := List.zipWith (fun a b =>
      match a, b with
      | a, none => a
      | none, some b2 => some b2
      | some a2, some b2 => some (addArr a2 b2)) (listOf x) (listOf y)
    match mkChecked x.irreps (addArr x.array y.array) (some l) with
    | none => .error .shape
    | some r => .ok r

/-- `IrrepsArray.__mul__` for two typed tensors: fails when both operands are
non-scalar; otherwise the operands are handed to the external
`e3nn.elementwise_tensor_product` (out of scope, spec §4.5), returned here as
the pair it is called with. -/
def mulT (x y : IrrepsArray) : Except Err (IrrepsArray × IrrepsArray) :=
  if 0 < lmaxI x.irreps ∧ 0 < lmaxI y.irreps then .error .ambiguous
  else .ok (x, y)

/-- `IrrepsArray.__rtruediv__(self, other)` with a bare scalar `c`: requires
an all-scalar spec and no deterministic-zero block, then divides elementwise. -/
def rtruedivT (c : ℚ) (y : IrrepsArray) : Except Err IrrepsArray :=
  if 0 < lmaxI y.irreps then .error .equivariance
  else if (listOf y).any (fun x => x.isNone) then .error .divZero
  else
    match mkChecked y.irreps (scalarDivArr c y.array)
      (some ((listOf y).map (fun x => x.map (fun b => scalarDivArr c b)))) with
    | none => .error .shape
    | some r => .ok r

/-- `IrrepsArray.__truediv__` for two typed tensors: the divisor must have a
non-empty all-scalar spec with the same number of channels; a `None`
(deterministic zero) divisor block fails; otherwise reciprocal-then-multiply,
the product being the external `e3nn.elementwise_tensor_product` applied to
the returned pair. -/
def truedivT (x y : IrrepsArray) : Except Err (IrrepsArray × IrrepsArray) :=
  if y.irreps = [] ∨ 0 < lmaxI y.irreps ∨ numIrreps x.irreps ≠ numIrreps y.irreps then
    .error .equivariance
  else if (listOf y).any (fun b => b.isNone) then .error .divZero
  else
    match rtruedivT 1 y with
    | .error e => .error e
    | .ok r => .ok (x, r)

/-- Boolean equality of the buffer against a bare value, under the broadcast
shapes the claims exercise (`1` for equal, `0` for different): a
0-dimensional value, an equal-shaped value, or a value of trailing dimension
1 broadcast along the last axis. -/
def bcastEqArr (a v : Arr) : Option Arr :=
  if v.shape = [] then
    match v.data with
    | [c] => some ⟨a.shape, a.data.map (fun q => if q = c then (1 : ℚ) else 0)⟩
    | _ => none
  else if v.shape = a.shape then
    some ⟨a.shape, List.zipWith (fun p q => if p = q then (1 : ℚ) else 0) a.data v.data⟩
  else if v.shape = a.shape.dropLast ++ [1] then
    some ⟨a.shape, (List.zipWith (fun row c => row.map (fun q => if q = c then (1 : ℚ) else 0))
      (chunk (lastD a) a.data) v.data).flatten⟩
  else none

/-- `IrrepsArray.__eq__` against a bare (non-tensor) value: raises unless
`irreps.lmax == 0` and (`other.ndim == 0` or `other.shape[-1] == 1`); on
success the result is a typed tensor over the same irreps whose buffer is the
broadcast elementwise comparison, with no stored block list. -/
def eqScalarT (t : IrrepsArray) (v : Arr) : Except Err IrrepsArray :=
  if 0 < lmaxI t.irreps ∨ (0 < v.shape.length ∧ v.shape.getLastD 0 ≠ 1) then .error .equivariance
  else
    match bcastEqArr t.array v with
    | none => .error .shape
    | some b =>
      match mkChecked t.irreps b none with
      | none => .error .shape
      | some r => .ok r

/-! ## `split` -/

/-- Slice `[p, q)` of the last axis (`numpy` clamping semantics). -/
def sliceLastAxis (a : Arr) (p q : Nat) : Arr :=
  ⟨a.shape.dropLast ++ [min q (lastD a) - min p (lastD a)],
   ((chunk (lastD a) a.data).map (fun row => (row.take q).drop p)).flatten⟩

/-- Consecutive boundary pairs `zip([0] + pts, pts + [L])`. -/
def boundaryPairs (pts : List Nat) (L : Nat) : List (Nat × Nat) :=
  List.zip (0 :: pts) (pts ++ [L])

/-- `jnp.split(a, pts, axis=-1)`. -/
def arrSplitLast (a : Arr) (pts : List Nat) : List Arr :=
  (boundaryPairs pts (lastD a)).map (fun pq => sliceLastAxis a pq.1 pq.2)

/-- The cumulative split points of the target specs,
`[sum(irreps.dim for irreps in irrepss[:i]) for i in range(1, len(irrepss))]`. -/
def splitPoints (targets : List Irreps) : List Nat :=
  (List.range' 1 (targets.length - 1)).map (fun i => ((targets.take i).map irrepsDim).sum)

/-- `IrrepsArray.split(indices)` with a list of target irreps specs: the
targets must jointly simplify to the spec of `self` (assertion); the buffer
is split at the cumulative dims, and each sub-tensor is constructed from its
buffer slice alone (no block list passed). -/
def splitIrrepsT (t : IrrepsArray) (targets : List Irreps) : Option (List IrrepsArray) :=
  if simplifyI t.irreps ≠ simplifyI targets.flatten then none
  else
    let parts := arrSplitLast t.array (splitPoints targets)
    if parts.length ≠ targets.length then none
    else (List.zip targets parts).mapM (fun p => mkChecked p.1 p.2 none)

/-- `IrrepsArray.split(indices)` with integer irrep-entry boundaries: the
buffer is split at the cumulative entry dims and each sub-tensor keeps the
corresponding slice `self.list[i:j]` of the original block list. -/
def splitIntT (t : IrrepsArray) (indices : List Nat) : Option (List IrrepsArray) :=
  let parts := arrSplitLast t.array (indices.map (fun i => irrepsDim (t.irreps.take i)))
  if parts.length ≠ indices.length + 1 then none
  else
    ((boundaryPairs indices t.irreps.length).zip parts).mapM (fun p =>
      mkChecked ((t.irreps.drop p.1.1).take (p.1.2 - p.1.1)) p.2
        (some (((listOf t).drop p.1.1).take (p.1.2 - p.1.1))))

/-! ## `convert`: the layout-repacking algorithm -/

/-- The integer-or-array accumulator of `convert` (`current_array`): an
integer count while every contribution so far is `None`/zero, a concrete
array once a non-null contribution arrives. -/
inductive Accum where
  | cnt : Nat → Accum
  | arr : Arr → Accum
deriving DecidableEq

/-- The multiplicity currently held by the accumulator (`current_mul`). -/
def accMul : Accum → Nat
  | .cnt c => c
  | .arr a => dim2 a

/-- The zero-multiplicity-slot skipping loop: emit `None` for each leading
zero-multiplicity target slot. -/
def skipZeros : List MulIr → List (Option Arr) × List MulIr
  | [] => ([], [])
  | (m, i) :: rest =>
    if m = 0 then
      let p := skipZeros rest
      (none :: p.1, p.2)
    else ([], (m, i) :: rest)

/-- One consumption of `m` multiplicity rows (block `x`, irrep dimension `d`)
into the accumulator, with integer-to-array promotion exactly as in the
source. -/
def consumeAcc (leading : List Nat) (d m : Nat) (x : Option Arr) (cur : Accum) : Accum :=
  match x, cur with
  | none, .cnt c => .cnt (c + m)
  | none, .arr a => .arr (cat2 a (zerosArr (leading ++ [m, d])))
  | some xa, .cnt c => if c = 0 then .arr xa else .arr (cat2 (zerosArr (leading ++ [c, d])) xa)
  | some xa, .arr a => .arr (cat2 a xa)

/-- The seal-and-advance step: if the accumulator holds exactly the head
target multiplicity, emit it (`None` if it stayed an integer count), reset
the accumulator, and skip any following zero-multiplicity slots. -/
def sealSkip (tm : Nat) (ti : Ir) (Tr : List MulIr) (cur : Accum) :
    List (Option Arr) × List MulIr × Accum :=
  match cur with
  | .cnt c =>
    if c = tm then
      let p := skipZeros Tr
      (none :: p.1, p.2, .cnt 0)
    else ([], (tm, ti) :: Tr, .cnt c)
  | .arr a =>
    if dim2 a = tm then
      let p := skipZeros Tr
      (some a :: p.1, p.2, .cnt 0)
    else ([], (tm, ti) :: Tr, .arr a)

/-- The inner `while mul > 0` loop of `convert` for one source block of
remaining multiplicity `mul`, block data `y` (shape `leading ++ [mul, d]`
when non-null).  Returns the emitted target blocks, the remaining target
slots, and the accumulator.  `none` models the `IndexError` on running out
of target slots (and the unreachable stuck state `needed == 0`, where the
source loops forever). -/
def feedOneAux (leading : List Nat) (d : Nat) :
    Nat → Nat → Option Arr → Accum → List MulIr →
      Option (List (Option Arr) × List MulIr × Accum)
  | _, 0, _, cur, T => some ([], T, cur)
  | 0, _ + 1, _, _, _ => none
  | fuel + 1, m + 1, y, cur, T =>
    match T with
    | [] => none
    | (tm, ti) :: Tr =>
      let needed := tm - accMul cur
      if needed = 0 then none
      else if m + 1 ≤ needed then
        some (sealSkip tm ti Tr (consumeAcc leading d (m + 1) y cur))
      else
        let x := y.map (fun a => (splitN2 a needed).1)
        let y2 := y.map (fun a => (splitN2 a needed).2)
        let s := sealSkip tm ti Tr (consumeAcc leading d needed x cur)
        match feedOneAux leading d fuel (m + 1 - needed) y2 s.2.2 s.2.1 with
        | none => none
        | some r => some (s.1 ++ r.1, r.2.1, r.2.2)

/-- The inner `while mul > 0` loop of `convert` for one source block of
remaining multiplicity `mul`, block data `y` (shape `leading ++ [mul, d]`
when non-null).  Returns the emitted target blocks, the remaining target
slots, and the accumulator.  `none` models the `IndexError` on running out
of target slots (and the unreachable stuck state `needed == 0`, where the
source loops forever).  Each iteration consumes at least one multiplicity
row, so a fuel of `mul` suffices. -/
def feedOne (leading : List Nat) (d : Nat) (mul : Nat) (y : Option Arr) (cur : Accum)
    (T : List MulIr) : Option (List (Option Arr) × List MulIr × Accum) :=
  feedOneAux leading d mul mul y cur T

/-- The outer loop of `convert` over the source `(mul_ir, block)` pairs. -/
def feedAll (leading : List Nat) (src : List (MulIr × Option Arr)) (cur : Accum)
    (T : List MulIr) : Option (List (Option Arr) × List MulIr × Accum) :=
  match src with
  | [] => some ([], T, cur)
  | ((m, i), y) :: rest =>
    match feedOne leading (irDim i) m y cur T with
    | none => none
    | some s =>
      match feedAll leading rest s.2.2 s.2.1 with
      | none => none
      | some r => some (s.1 ++ r.1, r.2.1, r.2.2)

/-- The final per-entry shape assertion of `convert`:
`x is None or x.shape[-2:] == (mul, ir.dim)`. -/
def convShapeOk (x : Option Arr) (mi : MulIr) : Bool :=
  match x with
  | none => true
  | some a => decide (dim2 a = mi.1 ∧ lastD a = irDim mi.2)

/-- `IrrepsArray.convert(irreps)`: requires the simplified specs to agree
(assertion), then streams the source blocks into the target slots; the
returned container keeps the very same buffer with the repacked block list.
`none` models any raised assertion. -/
def convertT (t : IrrepsArray) (I : Irreps) : Option IrrepsArray :=
  if simplifyI t.irreps ≠ simplifyI I then none
  else
    let p := skipZeros I
    match feedAll t.array.shape.dropLast (List.zip t.irreps (listOf t)) (.cnt 0) p.2 with
    | none => none
    | some r =>
      if r.2.2 ≠ Accum.cnt 0 then none
      else
        let newList := p.1 ++ r.1
        if newList.length ≠ I.length then none
        else if ¬ ((List.zip newList I).all (fun q => convShapeOk q.1 q.2)) then none
        else mkChecked I t.array (some newList)

/-! ## Auxiliary definitions for the theorems -/

/-- The reciprocal tensor built by `__rtruediv__` when its guards pass:
`c / y` elementwise on the buffer and on every block. -/
def recipIA (c : ℚ) (y : IrrepsArray) : IrrepsArray :=
  ⟨y.irreps, scalarDivArr c y.array,
   some ((listOf y).map (fun x => x.map (fun b => scalarDivArr c b)))⟩

/-- A concrete well-formed scalar tensor (irreps `1x0e`, buffer `[2]`). -/
def tSc : IrrepsArray := ⟨[(1, Ir0e)], ⟨[1], [2]⟩, none⟩

/-- A concrete well-formed non-scalar tensor (irreps `1x1e`, buffer `[1,2,3]`). -/
def tVec : IrrepsArray := ⟨[(1, Ir1e)], ⟨[3], [1, 2, 3]⟩, none⟩

/-- `TypedTensor.zeros("1x0e", ())`: its block list is the `None` sentinel. -/
def tZ : IrrepsArray := zerosIA [(1, Ir0e)] []

/-- A bare value of shape `(2,)` (trailing dimension 2). -/
def vTrail2 : Arr := ⟨[2], [0, 0]⟩

/-- A concrete two-entry tensor over `1x0e + 1x1e` with buffer `[1,2,3,4]`. -/
def tMix : IrrepsArray := ⟨[(1, Ir0e), (1, Ir1e)], ⟨[4], [1, 2, 3, 4]⟩, none⟩

/-- The effect of a multi-axis `keepdims`-style reduction on a shape: the
reduced axes collapse to 1, then are removed unless `keepdims`. -/
def shapeRed (axes : List Nat) (kd : Bool) (s : List Nat) : List Nat :=
  if kd then axes.foldl (fun acc i => acc.set i 1) s
  else ((axes.foldl (fun acc i => acc.set i 1) s).enum.filter
    (fun p => decide (p.1 ∉ axes))).map Prod.snd

/-- Whether an operator result is a success. -/
def isOkE {A : Type} (e : Except Err A) : Bool :=
  match e with
  | .ok _ => true
  | .error _ => false

/-- A bare 0-dimensional value. -/
def vScal : Arr := ⟨[], [5]⟩

/-- Shape of one stored-or-derived block, as demanded by the constructor. -/
def BlockShaped (leading : List Nat) (x : Option Arr) (mi : MulIr) : Prop :=
  ∀ b, x = some b → b.shape = leading ++ [mi.1, irDim mi.2]

/-- The argument of one `feedOne` call: the source block, when present, has
the block shape of its `(mul, ir)` entry. -/
def BlockArg (leading : List Nat) (m d : Nat) (y : Option Arr) : Prop :=
  ∀ a, y = some a → a.shape = leading ++ [m, d]

/-- The state invariant of the repacking loop: the head target slot has
positive multiplicity and strictly more room than the accumulator holds, an
array accumulator is shaped `leading ++ [held, dim]` for the head slot's
irrep, and an exhausted target list forces the reset accumulator. -/
def StInv (leading : List Nat) (T : List MulIr) (cur : Accum) : Prop :=
  (∀ tm ti Tr, T = (tm, ti) :: Tr → 0 < tm ∧ accMul cur < tm) ∧
  (∀ a, cur = Accum.arr a →
    ∃ tm ti Tr, T = (tm, ti) :: Tr ∧ a.shape = leading ++ [dim2 a, irDim ti]) ∧
  (T = [] → cur = Accum.cnt 0)

/-- A 2×0e source tensor used to exhibit a concrete layout conversion. -/
def tCvt : IrrepsArray := ⟨[(2, Ir0e)], ⟨[2], [1, 2]⟩, none⟩

instance : Inhabited Ir := ⟨Ir0e⟩

instance : Inhabited Arr := ⟨⟨[], []⟩⟩

/-- The per-row concatenation underlying `concatLastData`: one list of rows,
each row the pointwise concatenation of the arrays' rows. -/
def rowsConc (L : Nat) (as : List Arr) : List (List ℚ) :=
  as.foldr (fun a acc => List.zipWith (· ++ ·) (rowsPad L a) acc) (List.replicate L [])

/-- The per-entry component that `from_list` concatenates: the stored block
reshaped to a flat last axis, or a zero-filled array for a `None` entry. -/
def fromBlockComp (leading : List Nat) (p : MulIr × Option Arr) : Arr :=
  match p.2 with
  | none => zerosArr (leading ++ [p.1.1 * irDim p.1.2])
  | some a => ⟨leading ++ [p.1.1 * irDim p.1.2], a.data⟩

/-- Decidable equality of operator results. -/
instance exceptDecEq {E A : Type} [DecidableEq E] [DecidableEq A] : DecidableEq (Except E A) :=
  fun x y =>
    match x, y with
    | .ok a, .ok b =>
      if h : a = b then isTrue (by rw [h]) else
        isFalse (by intro hc; injection hc; contradiction)
    | .error e, .error f =>
      if h : e = f then isTrue (by rw [h]) else
        isFalse (by intro hc; injection hc; contradiction)
    | .ok _, .error _ => isFalse (by intro hc; cases hc)
    | .error _, .ok _ => isFalse (by intro hc; cases hc)

/-! ## Basic infrastructure lemmas -/

theorem all_zip_iff_forall2 {α β : Type} (f : α → β → Bool) :
    ∀ (l1 : List α) (l2 : List β), l1.length = l2.length →
      ((List.zip l1 l2).all (fun p => f p.1 p.2) = true ↔
        List.Forall₂ (fun a b => f a b = true) l1 l2) := by
  intro l1
  induction l1 with
  | nil =>
    intro l2 h
    cases l2 with
    | nil => simp
    | cons b t => simp at h
  | cons a t1 ih =>
    intro l2 h
    cases l2 with
    | nil => simp at h
    | cons b t2 =>
      simp only [List.zip_cons_cons, List.all_cons, Bool.and_eq_true, List.forall₂_cons]
      constructor
      · rintro ⟨h1, h2⟩
        exact ⟨h1, (ih t2 (by simpa using h)).mp h2⟩
      · rintro ⟨h1, h2⟩
        exact ⟨h1, (ih t2 (by simpa using h)).mpr h2⟩

theorem blockShapeOkB_iff (leading : List Nat) (x : Option Arr) (mi : MulIr) :
    blockShapeOkB leading x mi = true ↔
      (∀ b, x = some b → b.shape = leading ++ [mi.1, irDim mi.2]) := by
  cases x with
  | none => simp [blockShapeOkB]
  | some a => simp [blockShapeOkB]

theorem offsetList_length : ∀ (I : Irreps) (o : Nat), (offsetList I o).length = I.length := by
  intro I
  induction I with
  | nil => intro o; rfl
  | cons mi r ih => intro o; simp [offsetList, ih]

theorem checks_unpack (I : Irreps) (a : Arr) (bl : Option (List (Option Arr)))
    (h : checksOk I a bl = true) :
    a.shape.getLast? = some (irrepsDim I) ∧
      (∀ l, bl = some l → l.length = I.length ∧
        List.Forall₂ (BlockShaped a.shape.dropLast) l I) := by
  unfold checksOk at h
  cases hg : a.shape.getLast? with
  | none => rw [hg] at h; exact absurd h (by simp)
  | some d =>
    rw [hg] at h
    cases bl with
    | none =>
      simp only [Bool.and_eq_true, decide_eq_true_eq] at h
      refine ⟨congrArg some h.1, by intro l hl; cases hl⟩
    | some l =>
      simp only [Bool.and_eq_true, decide_eq_true_eq] at h
      refine ⟨congrArg some h.1, ?_⟩
      intro l2 hl2
      cases hl2
      refine ⟨h.2.1, ?_⟩
      have := (all_zip_iff_forall2 (blockShapeOkB a.shape.dropLast) l I h.2.1).mp h.2.2
      exact this.imp (fun x mi hx => (blockShapeOkB_iff _ _ _).mp hx)

theorem checks_intro (I : Irreps) (a : Arr) (bl : Option (List (Option Arr)))
    (h1 : a.shape.getLast? = some (irrepsDim I))
    (h2 : ∀ l, bl = some l → l.length = I.length ∧
      List.Forall₂ (BlockShaped a.shape.dropLast) l I) :
    checksOk I a bl = true := by
  unfold checksOk
  rw [h1]
  cases bl with
  | none => simp
  | some l =>
    obtain ⟨hl, hf⟩ := h2 l rfl
    simp only [Bool.and_eq_true, decide_eq_true_eq]
    refine ⟨by simp, hl, ?_⟩
    exact (all_zip_iff_forall2 (blockShapeOkB a.shape.dropLast) l I hl).mpr
      (hf.imp (fun x mi hx => (blockShapeOkB_iff _ _ _).mpr hx))

theorem shape_decomp (t : IrrepsArray) (hw : WF t) :
    t.array.shape = t.array.shape.dropLast ++ [irrepsDim t.irreps] := by
  obtain ⟨hc, _, _⟩ := hw
  obtain ⟨hg, _⟩ := checks_unpack _ _ _ hc
  have hne : t.array.shape ≠ [] := by
    intro h; rw [h] at hg; simp at hg
  rw [List.getLast?_eq_getLast _ hne, Option.some.injEq] at hg
  conv_lhs => rw [← List.dropLast_append_getLast hne]
  rw [hg]

theorem derive_forall2 (a : Arr) :
    ∀ (I : Irreps) (o : Nat),
      List.Forall₂ (BlockShaped a.shape.dropLast)
        ((offsetList I o).map (fun p => some (sliceBlock a p.1 p.2.1 (irDim p.2.2)))) I := by
  intro I
  induction I with
  | nil => intro o; simp [offsetList]
  | cons mi r ih =>
    intro o
    simp only [offsetList, List.map_cons, List.forall₂_cons]
    exact ⟨by intro b hb; cases hb; rfl, ih _⟩

theorem listOf_shapes (t : IrrepsArray) (hw : WF t) :
    List.Forall₂ (BlockShaped t.array.shape.dropLast) (listOf t) t.irreps := by
  obtain ⟨hc, _, _⟩ := hw
  obtain ⟨_, hbl⟩ := checks_unpack _ _ _ hc
  cases hb : t.blocks? with
  | some l =>
    rw [listOf, hb]
    exact (hbl l hb).2
  | none =>
    rw [listOf, hb]
    unfold deriveList
    rcases hI : t.irreps with _ | ⟨⟨m, i⟩, _ | ⟨mi2, rest⟩⟩
    · exact List.Forall₂.nil
    · exact List.Forall₂.cons (by intro b hb2; cases hb2; rfl) List.Forall₂.nil
    · exact derive_forall2 t.array ((m, i) :: mi2 :: rest) 0

theorem listOf_length (t : IrrepsArray) (hw : WF t) :
    (listOf t).length = t.irreps.length :=
  (listOf_shapes t hw).length_eq


/-! ## Small option/list helpers -/

theorem any_isNone_iff (l : List (Option Arr)) :
    (l.any (fun x => x.isNone) = true) ↔ none ∈ l := by
  rw [List.any_eq_true]
  constructor
  · rintro ⟨x, hx, hnx⟩
    rw [Option.isNone_iff_eq_none] at hnx
    rw [← hnx]; exact hx
  · intro h; exact ⟨none, h, rfl⟩

theorem rtruediv_after (c : ℚ) (y : IrrepsArray) (hl : lmaxI y.irreps = 0)
    (hnn : ¬ none ∈ listOf y) :
    rtruedivT c y =
      (match mkChecked y.irreps (scalarDivArr c y.array)
        (some ((listOf y).map (fun x => x.map (fun b => scalarDivArr c b)))) with
       | none => Except.error Err.shape
       | some r => Except.ok r) := by
  have hfalse : ((listOf y).any fun x => x.isNone) = false := by
    rw [← Bool.not_eq_true]
    intro hx
    exact hnn ((any_isNone_iff _).mp hx)
  unfold rtruedivT
  rw [if_neg (by omega), if_neg (by simp [hfalse])]

theorem recip_checks (c : ℚ) (y : IrrepsArray) (hw : WF y) :
    mkChecked y.irreps (scalarDivArr c y.array)
      (some ((listOf y).map (fun x => x.map (fun b => scalarDivArr c b)))) =
      some (recipIA c y) := by
  unfold mkChecked
  rw [if_pos]
  · rfl
  · apply checks_intro
    · obtain ⟨hc, _, _⟩ := hw
      obtain ⟨hg, _⟩ := checks_unpack _ _ _ hc
      exact hg
    · intro l hl
      injection hl with hl
      constructor
      · rw [← hl, List.length_map]
        exact listOf_length y hw
      · rw [← hl]
        rw [List.forall₂_map_left_iff]
        apply (listOf_shapes y hw).imp
        intro x mi hx b hb
        cases x with
        | none => cases hb
        | some a =>
          simp only [Option.map_some'] at hb
          injection hb with hb
          rw [← hb]
          exact hx a rfl


/-! ## Claims C9, C3, C4, C5 -/

/-- C9: `TypedTensor.zeros("2x0e", leadingShape=(3,))` produces a tensor whose
buffer has shape `(3, 2)` and is filled with zeros, and whose block list
equals `[None]` — one `None` sentinel per irrep entry, denoting deterministic
zero. -/
theorem c9_zeros_scenario :
    (zerosIA [(2, Ir0e)] [3]).array.shape = [3, 2] ∧
    (zerosIA [(2, Ir0e)] [3]).array.data = List.replicate 6 0 ∧
    (zerosIA [(2, Ir0e)] [3]).blocks? = some [none] := by decide

/-- C3: for typed tensors `x`, `y` such that division is otherwise permitted
(`y` has a non-empty all-scalar spec with the same number of channels as
`x`), `x / y` fails with the deterministic-zero division error if and only
if `y`'s block list contains a `None` entry (a lazily derived view never
contains `None`, so an unstored block list never triggers the error).  The
self-division scenario is the instance `x := y` of this statement. -/
theorem c3_div_by_deterministic_zero (x y : IrrepsArray) (hwx : WF x) (hwy : WF y)
    (hne : y.irreps ≠ []) (hl : lmaxI y.irreps = 0)
    (hn : numIrreps x.irreps = numIrreps y.irreps) :
    truedivT x y = Except.error Err.divZero ↔ none ∈ listOf y := by
  unfold truedivT
  rw [if_neg (by push_neg; exact ⟨hne, by omega, hn⟩)]
  by_cases hz : none ∈ listOf y
  · rw [if_pos ((any_isNone_iff _).mpr hz)]
    simp [hz]
  · rw [if_neg (fun hx => hz ((any_isNone_iff _).mp hx))]
    have hr := rtruediv_after 1 y hl hz
    constructor
    · intro hcontra
      exfalso
      cases hmk : mkChecked y.irreps (scalarDivArr 1 y.array)
        (some ((listOf y).map (fun x2 => x2.map (fun b => scalarDivArr 1 b)))) with
      | none => rw [hmk] at hr; rw [hr] at hcontra; simp at hcontra
      | some r => rw [hmk] at hr; rw [hr] at hcontra; simp at hcontra
    · intro hmem; exact absurd hmem hz

/-- Witness for C3: the claim's own scenario — dividing a typed tensor whose
block list contains a `None` entry (`zeros("1x0e", ())`) by itself fails
with the deterministic-zero division error. -/
theorem c3_witness : truedivT tZ tZ = Except.error Err.divZero :=
  (c3_div_by_deterministic_zero tZ tZ (by decide) (by decide) (by decide) (by decide)
    (by decide)).mpr (by decide)

/-- C4 counterexample: the claim says `*` and `/` "do not fail … when at most
one operand is non-scalar (assuming division's other preconditions hold:
non-empty divisor spec, matching number of irrep channels, no
deterministic-zero divisor blocks)".  Here only the divisor is non-scalar and
all the listed preconditions hold, yet `x / y` raises the equivariance
error: `__truediv__` demands an all-scalar divisor regardless of `x`. -/
theorem c4_cex :
    WF tSc ∧ WF tVec ∧ lmaxI tSc.irreps = 0 ∧ 0 < lmaxI tVec.irreps ∧
    tVec.irreps ≠ [] ∧ numIrreps tSc.irreps = numIrreps tVec.irreps ∧
    (¬ none ∈ listOf tVec) ∧
    truedivT tSc tVec = Except.error Err.equivariance := by decide

/-- C4 (amended): multiplication of two typed tensors fails (as ambiguous)
iff both operands are non-scalar; division fails with the equivariance error
iff its divisor is non-scalar, has an empty spec, or has a mismatched channel
count (regardless of the dividend), and succeeds — handing
`(x, 1/y)` to the external elementwise tensor product — whenever the divisor
is a well-formed non-empty all-scalar tensor with matching channel count and
no deterministic-zero block. -/
theorem c4_amended (x y : IrrepsArray) :
    (mulT x y = Except.error Err.ambiguous ↔
      0 < lmaxI x.irreps ∧ 0 < lmaxI y.irreps) ∧
    (truedivT x y = Except.error Err.equivariance ↔
      (y.irreps = [] ∨ 0 < lmaxI y.irreps ∨ numIrreps x.irreps ≠ numIrreps y.irreps)) ∧
    (WF y → y.irreps ≠ [] → lmaxI y.irreps = 0 →
      numIrreps x.irreps = numIrreps y.irreps → ¬ none ∈ listOf y →
      truedivT x y = Except.ok (x, recipIA 1 y)) := by
  refine ⟨?_, ?_, ?_⟩
  · unfold mulT
    by_cases h : 0 < lmaxI x.irreps ∧ 0 < lmaxI y.irreps
    · rw [if_pos h]; simp [h]
    · rw [if_neg h]; simp [h]
  · unfold truedivT
    by_cases h : y.irreps = [] ∨ 0 < lmaxI y.irreps ∨ numIrreps x.irreps ≠ numIrreps y.irreps
    · rw [if_pos h]; simp [h]
    · rw [if_neg h]
      push_neg at h
      obtain ⟨h1, h2, h3⟩ := h
      constructor
      · intro hcontra
        exfalso
        by_cases hz : ((listOf y).any fun b => b.isNone) = true
        · rw [if_pos hz] at hcontra; simp at hcontra
        · rw [if_neg hz] at hcontra
          have hnn : ¬ none ∈ listOf y := fun hm => hz ((any_isNone_iff _).mpr hm)
          have hr := rtruediv_after 1 y (by omega) hnn
          cases hmk : mkChecked y.irreps (scalarDivArr 1 y.array)
            (some ((listOf y).map (fun x2 => x2.map (fun b => scalarDivArr 1 b)))) with
          | none => rw [hmk] at hr; rw [hr] at hcontra; simp at hcontra
          | some r => rw [hmk] at hr; rw [hr] at hcontra; simp at hcontra
      · rintro (hc | hc | hc)
        · exact absurd hc h1
        · omega
        · exact absurd h3 hc
  · intro hwy hne hl hn hnn
    unfold truedivT
    rw [if_neg (by push_neg; exact ⟨hne, by omega, hn⟩)]
    rw [if_neg (fun hx => hnn ((any_isNone_iff _).mp hx))]
    rw [rtruediv_after 1 y hl hnn, recip_checks 1 y hwy]

/-- Witness for C4 (amended): a concrete scalar-by-scalar division succeeds. -/
theorem c4_witness : truedivT tSc tSc = Except.ok (tSc, recipIA 1 tSc) :=
  (c4_amended tSc tSc).2.2 (by decide) (by decide) (by decide) (by decide) (by decide)

/-- C5 counterexample: the claim says `t == v` succeeds if `t`'s irreps are
all scalar-even OR `v`'s trailing dimension is 1.  Here `t` is all
scalar-even but `v` has trailing dimension 2, and the comparison raises the
non-equivariance error: the source requires BOTH `lmax == 0` AND a trailing
dimension of 1 (or a 0-dimensional `v`). -/
theorem c5_cex :
    WF tSc ∧ tSc.irreps.all (fun mi => decide (mi.2 = Ir0e)) = true ∧
    eqScalarT tSc vTrail2 = Except.error Err.equivariance := by decide

/-- C5 (amended): for a well-formed typed tensor `t` and a bare value `v` of
one of the broadcastable shapes (0-dimensional, trailing dimension 1 over
the tensor's leading shape, or exactly the buffer's shape), `t == v`
succeeds if and only if `irreps.lmax == 0` AND (`v` is 0-dimensional or
`v`'s trailing dimension is 1); otherwise it fails as non-equivariant.
Note `lmax == 0` allows odd scalars (`0o`) as well — the source checks
`lmax`, not scalar-even-ness. -/
theorem c5_amended (t : IrrepsArray) (v : Arr) (hw : WF t) (hv : ArrWf v)
    (hsh : v.shape = [] ∨ v.shape = t.array.shape.dropLast ++ [1] ∨ v.shape = t.array.shape) :
    isOkE (eqScalarT t v) = true ↔
      (lmaxI t.irreps = 0 ∧ (v.shape = [] ∨ v.shape.getLastD 0 = 1)) := by
  unfold eqScalarT
  by_cases hg : 0 < lmaxI t.irreps ∨ (0 < v.shape.length ∧ v.shape.getLastD 0 ≠ 1)
  · rw [if_pos hg]
    simp only [isOkE]
    constructor
    · intro hcontra; cases hcontra
    · rintro ⟨hl, hd⟩
      exfalso
      rcases hg with hg | ⟨hg1, hg2⟩
      · omega
      · rcases hd with hd | hd
        · rw [hd] at hg1; simp at hg1
        · exact hg2 hd
  · rw [if_neg hg]
    push_neg at hg
    obtain ⟨hl, hg2⟩ := hg
    have hRHS : lmaxI t.irreps = 0 ∧ (v.shape = [] ∨ v.shape.getLastD 0 = 1) := by
      refine ⟨by omega, ?_⟩
      by_cases hvn : v.shape = []
      · exact Or.inl hvn
      · exact Or.inr (hg2 (by exact List.length_pos.mpr hvn))
    have hb : ∃ b, bcastEqArr t.array v = some b ∧ b.shape = t.array.shape := by
      rcases hsh with hs | hs | hs
      · obtain ⟨c, hc⟩ : ∃ c, v.data = [c] := by
          have hv1 : v.data.length = 1 := by
            have hv2 := hv
            unfold ArrWf at hv2
            rw [hs] at hv2
            simpa using hv2
          exact List.length_eq_one.mp hv1
        refine ⟨⟨t.array.shape, t.array.data.map (fun q => if q = c then (1 : ℚ) else 0)⟩, ?_, rfl⟩
        unfold bcastEqArr
        rw [if_pos hs, hc]
      · by_cases heq : v.shape = t.array.shape
        · refine ⟨⟨t.array.shape,
            List.zipWith (fun p q => if p = q then (1 : ℚ) else 0) t.array.data v.data⟩, ?_, rfl⟩
          unfold bcastEqArr
          rw [if_neg (by rw [hs]; simp), if_pos heq]
        · refine ⟨⟨t.array.shape,
            (List.zipWith (fun row c => row.map (fun q => if q = c then (1 : ℚ) else 0))
              (chunk (lastD t.array) t.array.data) v.data).flatten⟩, ?_, rfl⟩
          unfold bcastEqArr
          rw [if_neg (by rw [hs]; simp), if_neg heq, if_pos hs]
      · refine ⟨⟨t.array.shape,
          List.zipWith (fun p q => if p = q then (1 : ℚ) else 0) t.array.data v.data⟩, ?_, rfl⟩
        unfold bcastEqArr
        have hane : t.array.shape ≠ [] := by
          obtain ⟨hc, _, _⟩ := hw
          obtain ⟨hgl, _⟩ := checks_unpack _ _ _ hc
          intro hcon; rw [hcon] at hgl; simp at hgl
        rw [if_neg (by rw [hs]; exact hane), if_pos hs]
    obtain ⟨b, hb1, hb2⟩ := hb
    have hmk : mkChecked t.irreps b none = some ⟨t.irreps, b, none⟩ := by
      unfold mkChecked
      rw [if_pos]
      apply checks_intro
      · rw [hb2]
        obtain ⟨hc, _, _⟩ := hw
        exact (checks_unpack _ _ _ hc).1
      · intro l hl2; cases hl2
    rw [hb1]
    simp only [hmk]
    exact iff_of_true rfl hRHS

/-- Witness for C5 (amended): comparing a well-formed scalar tensor with a
0-dimensional bare value succeeds. -/
theorem c5_witness : isOkE (eqScalarT tSc vScal) = true :=
  (c5_amended tSc vScal (by decide) (by decide) (Or.inl rfl)).mpr (by decide)

/-! ## Claim C6: additive identity -/

theorem zipWith_add_zeroR : ∀ (l : List ℚ) (n : Nat), l.length ≤ n →
    List.zipWith (· + ·) l (List.replicate n (0 : ℚ)) = l := by
  intro l
  induction l with
  | nil => intro n _; simp
  | cons x xs ih =>
    intro n hn
    cases n with
    | zero => simp at hn
    | succ m =>
      rw [List.replicate_succ, List.zipWith_cons_cons, ih m (by simpa using hn)]
      rw [add_zero]

theorem zip_combine_none (l : List (Option Arr)) : ∀ n, l.length ≤ n →
    List.zipWith (fun a b =>
      match a, b with
      | a, none => a
      | none, some b2 => some b2
      | some a2, some b2 => some (addArr a2 b2)) l (List.replicate n none) = l := by
  induction l with
  | nil => intro n _; simp
  | cons x xs ih =>
    intro n hn
    cases n with
    | zero => simp at hn
    | succ m =>
      rw [List.replicate_succ, List.zipWith_cons_cons, ih m (by simpa using hn)]
      cases x with
      | none => rfl
      | some a2 => rfl

theorem mk_self (t : IrrepsArray) (hw : WF t) :
    mkChecked t.irreps t.array (some (listOf t)) = some ⟨t.irreps, t.array, some (listOf t)⟩ := by
  unfold mkChecked
  rw [if_pos]
  apply checks_intro
  · obtain ⟨hc, _, _⟩ := hw
    exact (checks_unpack _ _ _ hc).1
  · intro l hl
    injection hl with hl
    rw [← hl]
    exact ⟨listOf_length t hw, listOf_shapes t hw⟩

/-- C6: for every well-formed typed tensor `t` (scalar or not),
`t + zeros(t.irreps, t.shape[:-1])` succeeds and equals `t` buffer-wise —
the result carries exactly the buffer `t.array` (and the block list of `t`,
since every zero block is a `None` treated as absent). -/
theorem c6_add_zeros_identity (t : IrrepsArray) (hw : WF t) :
    addT t (zerosIA t.irreps t.array.shape.dropLast) =
      Except.ok ⟨t.irreps, t.array, some (listOf t)⟩ := by
  have hlen : t.array.data.length = (t.array.shape.dropLast ++ [irrepsDim t.irreps]).prod := by
    rw [← shape_decomp t hw]
    exact hw.2.1
  have harr : addArr t.array (zerosArr (t.array.shape.dropLast ++ [irrepsDim t.irreps])) =
      t.array := by
    unfold addArr zerosArr
    rw [zipWith_add_zeroR _ _ (le_of_eq hlen)]
  have hcomb : List.zipWith (fun a b =>
      match a, b with
      | a, none => a
      | none, some b2 => some b2
      | some a2, some b2 => some (addArr a2 b2)) (listOf t)
        (List.replicate t.irreps.length none) = listOf t :=
    zip_combine_none (listOf t) t.irreps.length (le_of_eq (listOf_length t hw))
  unfold addT
  rw [if_neg (fun hc => hc rfl)]
  rw [show listOf (zerosIA t.irreps t.array.shape.dropLast) =
    List.replicate t.irreps.length none from rfl]
  rw [show (zerosIA t.irreps t.array.shape.dropLast).array =
    zerosArr (t.array.shape.dropLast ++ [irrepsDim t.irreps]) from rfl]
  rw [hcomb, harr]
  simp only [mk_self t hw]

/-- Witness for C6 at a concrete well-formed tensor. -/
theorem c6_witness :
    addT tSc (zerosIA tSc.irreps tSc.array.shape.dropLast) =
      Except.ok ⟨tSc.irreps, tSc.array, some (listOf tSc)⟩ :=
  c6_add_zeros_identity tSc (by decide)

/-! ## `from_list` success and claim C8 (`norm`) -/

theorem set_append_right {α : Type} : ∀ (A : List α) (B : List α) (k : Nat) (v : α),
    (A ++ B).set (A.length + k) v = A ++ B.set k v := by
  intro A
  induction A with
  | nil => intro B k v; simp
  | cons a As ih =>
    intro B k v
    simp only [List.cons_append, List.length_cons]
    rw [show As.length + 1 + k = (As.length + k) + 1 by omega]
    rw [List.set_cons_succ, ih]

theorem from_list_some (I : Irreps) (l : List (Option Arr)) (leading : List Nat)
    (hlen : I.length = l.length)
    (hsh : List.Forall₂ (BlockShaped leading) l I) :
    ∃ a, from_list I l leading = some ⟨I, a, some l⟩ ∧ a.shape = leading ++ [irrepsDim I] := by
  have hall : ((List.zip l I).all (fun p => blockShapeOkB leading p.1 p.2)) = true :=
    (all_zip_iff_forall2 (blockShapeOkB leading) l I hlen.symm).mpr
      (hsh.imp (fun x mi hx => (blockShapeOkB_iff _ _ _).mpr hx))
  unfold from_list
  rw [if_neg (fun hc => hc hlen), if_neg (not_not_intro hall)]
  by_cases hdim : 0 < irrepsDim I
  · rw [if_pos hdim]
    have hshape : (concatLastA leading ((List.zip I l).map (fun p =>
        match p.2 with
        | none => zerosArr (leading ++ [p.1.1 * irDim p.1.2])
        | some a => ⟨leading ++ [p.1.1 * irDim p.1.2], a.data⟩))).shape =
        leading ++ [irrepsDim I] := by
      unfold concatLastA
      congr 1
      congr 1
      rw [List.map_map]
      have hmaps : ∀ p : MulIr × Option Arr,
          (lastD ∘ fun p : MulIr × Option Arr =>
            match p.2 with
            | none => zerosArr (leading ++ [p.1.1 * irDim p.1.2])
            | some a => ⟨leading ++ [p.1.1 * irDim p.1.2], a.data⟩) p =
            p.1.1 * irDim p.1.2 := by
        intro p
        cases hp : p.2 with
        | none => simp [hp, lastD, zerosArr, List.getLastD_concat]
        | some a => simp [hp, lastD, List.getLastD_concat]
      rw [List.map_congr_left (fun p _ => hmaps p)]
      have : (List.zip I l).map (fun p => p.1.1 * irDim p.1.2) =
          I.map (fun mi => mi.1 * irDim mi.2) := by
        rw [show (fun p : MulIr × Option Arr => p.1.1 * irDim p.1.2) =
          ((fun mi : MulIr => mi.1 * irDim mi.2) ∘ Prod.fst) from rfl]
        rw [← List.map_map]
        rw [List.map_fst_zip I l (le_of_eq hlen)]
      rw [this]
      rfl
    refine ⟨_, ?_, hshape⟩
    unfold mkChecked
    rw [if_pos]
    apply checks_intro
    · rw [hshape]
      exact List.getLast?_concat leading
    · intro l2 hl2
      injection hl2 with hl2
      rw [← hl2, hshape, List.dropLast_concat]
      exact ⟨hlen.symm, hsh⟩
  · rw [if_neg hdim]
    have hd0 : irrepsDim I = 0 := by omega
    refine ⟨zerosArr (leading ++ [0]), ?_, ?_⟩
    · unfold mkChecked
      rw [if_pos]
      apply checks_intro
      · show ((leading ++ [0] : List Nat)).getLast? = some (irrepsDim I)
        rw [List.getLast?_concat leading, hd0]
      · intro l2 hl2
        injection hl2 with hl2
        rw [← hl2]
        refine ⟨hlen.symm, ?_⟩
        have hdl : (zerosArr (leading ++ [0])).shape.dropLast = leading := by
          show ((leading ++ [0] : List Nat)).dropLast = leading
          exact List.dropLast_concat
        rw [hdl]
        exact hsh
    · show (leading ++ [0] : List Nat) = leading ++ [irrepsDim I]
      rw [hd0]

theorem normBlock_shape (sq : Bool) (f : ℚ → ℚ) (b : Arr) :
    (normBlock sq f b).shape = b.shape.set (b.shape.length - 1) 1 := by
  cases sq with
  | true => rfl
  | false => rfl

theorem mapM_norm (sq : Bool) (f : ℚ → ℚ) : ∀ (l : List (Option Arr)), ¬ none ∈ l →
    (l.mapM (fun x =>
      match x with
      | none => none
      | some b => some (some (normBlock sq f b)))) =
      some (l.map (fun x => x.map (normBlock sq f))) := by
  intro l
  induction l with
  | nil => intro _; rfl
  | cons x xs ih =>
    intro hnn
    cases x with
    | none => exact absurd (List.mem_cons_self none xs) hnn
    | some b =>
      rw [List.mapM_cons]
      have hxs : ¬ none ∈ xs := fun hm => hnn (List.mem_cons_of_mem _ hm)
      rw [ih hxs]
      rfl

/-- C8 counterexample: the claim quantifies over every typed tensor, but
`norm` applies `x ** 2` to every entry of the block list unguarded, so a
stored `None` (deterministic zero) block — as produced by `zeros` — raises a
`TypeError` instead of returning a tensor, for both `squared` settings. -/
theorem c8_norm_none_cex :
    WF tZ ∧ normT id false tZ = none ∧ normT id true tZ = none := by decide

/-- C8 (amended): for every well-formed typed tensor whose block list
contains no `None` entry, `norm(squared)` returns a typed tensor whose spec
replaces every `(mul, ir)` with `(mul, "0e")`, and whose stored block list is
exactly the per-block sum of squares over the irrep-dimension axis with a
kept size-1 trailing axis, square-rooted (elementwise, by the host square
root `f`) unless `squared` is true (`normBlock`). -/
theorem c8_norm_spec (t : IrrepsArray) (hw : WF t) (hnn : ¬ none ∈ listOf t)
    (sq : Bool) (f : ℚ → ℚ) :
    ∃ r, normT f sq t = some r ∧
      r.irreps = t.irreps.map (fun mi => (mi.1, Ir0e)) ∧
      r.blocks? = some ((listOf t).map (fun x => x.map (normBlock sq f))) := by
  unfold normT
  rw [mapM_norm sq f (listOf t) hnn]
  have hlen : (t.irreps.map (fun mi => (mi.1, Ir0e))).length =
      ((listOf t).map (fun x => x.map (normBlock sq f))).length := by
    simp [listOf_length t hw]
  have hsh : List.Forall₂ (BlockShaped t.array.shape.dropLast)
      ((listOf t).map (fun x => x.map (normBlock sq f)))
      (t.irreps.map (fun mi => (mi.1, Ir0e))) := by
    rw [List.forall₂_map_left_iff, List.forall₂_map_right_iff]
    apply (listOf_shapes t hw).imp
    intro x mi hx b hb
    cases x with
    | none => cases hb
    | some a =>
      simp only [Option.map_some'] at hb
      injection hb with hb
      rw [← hb, normBlock_shape]
      have ha := hx a rfl
      rw [ha]
      have hlen2 : (t.array.shape.dropLast ++ [mi.1, irDim mi.2]).length =
          t.array.shape.dropLast.length + 2 := by simp
      rw [hlen2]
      rw [show t.array.shape.dropLast.length + 2 - 1 =
        t.array.shape.dropLast.length + 1 by omega]
      rw [set_append_right]
      rfl
  obtain ⟨a, ha, _⟩ := from_list_some _ _ _ hlen hsh
  exact ⟨_, ha, rfl, rfl⟩

/-- Witness for C8 (amended): the norm of a concrete scalar tensor has spec
`1x0e`. -/
theorem c8_witness :
    (normT id true tSc).map (fun r => r.irreps) = some [(1, Ir0e)] := by
  obtain ⟨r, h1, h2, _⟩ := c8_norm_spec tSc (by decide) (by decide) true id
  rw [h1, Option.map_some', h2]
  rfl

/-! ## Expansion lemmas: `simplify`-equal specs have equal expansions -/

theorem expandIr_cons (mi : MulIr) (r : Irreps) :
    expandIr (mi :: r) = List.replicate mi.1 mi.2 ++ expandIr r := by
  simp [expandIr]

theorem expandIr_append (A B : Irreps) : expandIr (A ++ B) = expandIr A ++ expandIr B := by
  simp [expandIr]

theorem irrepsDim_eq_expand (I : Irreps) : irrepsDim I = ((expandIr I).map irDim).sum := by
  induction I with
  | nil => rfl
  | cons mi r ih =>
    rw [expandIr_cons]
    simp only [irrepsDim, List.map_cons, List.sum_cons, List.map_append, List.sum_append,
      List.map_replicate, List.sum_replicate, smul_eq_mul]
    rw [irrepsDim] at ih
    omega

theorem expand_filter (I : Irreps) :
    expandIr (I.filter (fun mi => mi.1 ≠ 0)) = expandIr I := by
  induction I with
  | nil => rfl
  | cons mi r ih =>
    by_cases hm : mi.1 = 0
    · rw [List.filter_cons_of_neg (by simp [hm])]
      rw [ih, expandIr_cons, hm]
      simp
    · rw [List.filter_cons_of_pos (by simp [hm])]
      rw [expandIr_cons, expandIr_cons, ih]

theorem expand_mergeAdj (I : Irreps) : expandIr (mergeAdj I) = expandIr I := by
  induction I with
  | nil => rfl
  | cons mi r ih =>
    obtain ⟨m1, i1⟩ := mi
    rw [mergeAdj]
    cases hm : mergeAdj r with
    | nil =>
      rw [hm] at ih
      rw [expandIr_cons, expandIr_cons, ← ih]
    | cons p r2 =>
      obtain ⟨m2, i2⟩ := p
      rw [hm, expandIr_cons] at ih
      show expandIr (if i1 = i2 then (m1 + m2, i2) :: r2 else (m1, i1) :: (m2, i2) :: r2) =
        expandIr ((m1, i1) :: r)
      by_cases he : i1 = i2
      · rw [if_pos he]
        rw [expandIr_cons, expandIr_cons, ← ih]
        subst he
        rw [List.replicate_add, List.append_assoc]
      · rw [if_neg he]
        rw [expandIr_cons, expandIr_cons, expandIr_cons, ih]

theorem simplify_expand (I : Irreps) : expandIr (simplifyI I) = expandIr I := by
  rw [simplifyI, expand_mergeAdj, expand_filter]

theorem expand_eq_of_simplify_eq {A B : Irreps} (h : simplifyI A = simplifyI B) :
    expandIr A = expandIr B := by
  rw [← simplify_expand A, ← simplify_expand B, h]

theorem dim_eq_of_simplify_eq {A B : Irreps} (h : simplifyI A = simplifyI B) :
    irrepsDim A = irrepsDim B := by
  rw [irrepsDim_eq_expand, irrepsDim_eq_expand, expand_eq_of_simplify_eq h]

theorem irrepsDim_flatten (ts : List Irreps) :
    irrepsDim ts.flatten = (ts.map irrepsDim).sum := by
  induction ts with
  | nil => rfl
  | cons x r ih =>
    rw [List.flatten_cons]
    simp only [List.map_cons, List.sum_cons]
    rw [← ih]
    simp [irrepsDim]

/-! ## `mapM` over `Option` -/

theorem mapM_eq_map {α β : Type} (f : α → Option β) (g : α → β) :
    ∀ (l : List α), (∀ x ∈ l, f x = some (g x)) → l.mapM f = some (l.map g) := by
  intro l
  induction l with
  | nil => intro _; rfl
  | cons x xs ih =>
    intro h
    rw [List.mapM_cons, h x (List.mem_cons_self x xs), ih (fun y hy => h y (List.mem_cons_of_mem _ hy))]
    rfl

theorem mapM_forall2 {α β : Type} (f : α → Option β) :
    ∀ (l : List α) (rs : List β), l.mapM f = some rs →
      List.Forall₂ (fun x r => f x = some r) l rs := by
  intro l
  induction l with
  | nil =>
    intro rs h
    cases rs with
    | nil => exact List.Forall₂.nil
    | cons r rr => simp only [List.mapM_nil, Option.some.injEq] at h; cases h
  | cons x xs ih =>
    intro rs h
    rw [List.mapM_cons] at h
    cases hfx : f x with
    | none => rw [hfx] at h; cases h
    | some r =>
      rw [hfx] at h
      cases hm : xs.mapM f with
      | none => rw [hm] at h; cases h
      | some rr =>
        rw [hm] at h
        simp only [Option.bind_some, Option.bind_eq_bind, Option.some_bind] at h
        have h2 : r :: rr = rs := by
          simpa using h
        rw [← h2]
        exact List.Forall₂.cons hfx (ih rr hm)

/-! ## Claim C10: `split` with target irreps specs -/

theorem splitPoints_length (targets : List Irreps) :
    (splitPoints targets).length = targets.length - 1 := by
  unfold splitPoints
  rw [List.length_map, List.length_range']

theorem splitPoints_getElem (targets : List Irreps) (j : Nat)
    (hj : j < (splitPoints targets).length) :
    (splitPoints targets)[j] = ((targets.map irrepsDim).take (j + 1)).sum := by
  unfold splitPoints
  rw [List.getElem_map, List.getElem_range', List.map_take]
  rw [show 1 + 1 * j = j + 1 by omega]

theorem forall2_mem_right {α β : Type} {R : α → β → Prop} :
    ∀ {l : List α} {rs : List β}, List.Forall₂ R l rs → ∀ r ∈ rs, ∃ x ∈ l, R x r := by
  intro l rs h
  induction h with
  | nil => intro r hr; cases hr
  | cons hR hrest ih =>
    intro r hr
    rcases List.mem_cons.mp hr with hr | hr
    · subst hr
      exact ⟨_, List.mem_cons_self _ _, hR⟩
    · obtain ⟨x, hx, hRx⟩ := ih r hr
      exact ⟨x, List.mem_cons_of_mem _ hx, hRx⟩

theorem mkChecked_inv {I : Irreps} {a : Arr} {bl : Option (List (Option Arr))}
    {r : IrrepsArray} (h : mkChecked I a bl = some r) : r = ⟨I, a, bl⟩ := by
  unfold mkChecked at h
  by_cases hc : checksOk I a bl = true
  · rw [if_pos hc] at h
    injection h with h
    rw [h]
  · rw [if_neg hc] at h
    cases h

theorem listOf_none_all_some (t2 : IrrepsArray) (hb : t2.blocks? = none) :
    ∀ x ∈ listOf t2, x.isSome = true := by
  intro x hx
  rw [listOf, hb] at hx
  unfold deriveList at hx
  rcases hI : t2.irreps with _ | ⟨⟨m, i⟩, _ | ⟨mi2, rest⟩⟩ <;> rw [hI] at hx
  · cases hx
  · rcases List.mem_singleton.mp hx with hx2
    rw [hx2]
    rfl
  · obtain ⟨p, _, hp⟩ := List.mem_map.mp hx
    rw [← hp]
    rfl

theorem lastD_of_wf (t : IrrepsArray) (hw : WF t) : lastD t.array = irrepsDim t.irreps := by
  rw [lastD]
  conv_lhs => rw [shape_decomp t hw]
  rw [List.getLastD_concat]

/-- C10: for a well-formed typed tensor and a list of target specs that
jointly simplify to its spec, the targets form of `split` succeeds and every
returned sub-tensor is built from a buffer slice alone: it stores no block
list, and its lazily derived block view contains no `None` entry — the
deterministic-zero sentinels of the input are not propagated.  By contrast
(second conjunct), the integer-boundary form passes slices of the original
block list — `None` sentinels included — through to its sub-tensors. -/
theorem c10_split_targets_no_none (t : IrrepsArray) (targets : List Irreps)
    (hw : WF t) (hs : simplifyI t.irreps = simplifyI targets.flatten)
    (hne : targets ≠ []) :
    (∃ rs, splitIrrepsT t targets = some rs ∧
      ∀ r ∈ rs, r.blocks? = none ∧ ∀ x ∈ listOf r, x.isSome = true) ∧
    (∀ idxs rs, splitIntT t idxs = some rs →
      ∀ r ∈ rs, ∃ i j, r.blocks? = some (((listOf t).drop i).take j)) := by
  constructor
  · have hn : 0 < targets.length := List.length_pos.mpr hne
    have hL : lastD t.array = (targets.map irrepsDim).sum := by
      rw [lastD_of_wf t hw, dim_eq_of_simplify_eq hs, irrepsDim_flatten]
    have hlenbp : (boundaryPairs (splitPoints targets) (lastD t.array)).length =
        targets.length := by
      unfold boundaryPairs
      rw [List.length_zip, List.length_cons, List.length_append, splitPoints_length]
      simp only [List.length_singleton]
      omega
    have hlenparts : (arrSplitLast t.array (splitPoints targets)).length = targets.length := by
      unfold arrSplitLast
      rw [List.length_map, hlenbp]
    have htake : ∀ j, j ≤ targets.length →
        ((targets.map irrepsDim).take j).sum ≤ lastD t.array := by
      intro j _
      rw [hL]
      have := List.sum_take_add_sum_drop (targets.map irrepsDim) j
      omega
    have hmkall : ∀ x ∈ (targets.zip (arrSplitLast t.array (splitPoints targets))),
        mkChecked x.1 x.2 none = some ⟨x.1, x.2, none⟩ := by
      intro x hx
      obtain ⟨i, hilen, hxi⟩ := List.mem_iff_getElem.mp hx
      have hi : i < targets.length := by
        rw [List.length_zip, hlenparts] at hilen
        omega
      have hip : i < (arrSplitLast t.array (splitPoints targets)).length := by
        rw [hlenparts]; exact hi
      rw [List.getElem_zip] at hxi
      have hb1 : i < (0 :: splitPoints targets).length := by
        rw [List.length_cons, splitPoints_length]
        omega
      have hb2 : i < ((splitPoints targets) ++ [lastD t.array]).length := by
        rw [List.length_append, splitPoints_length]
        simp only [List.length_singleton]
        omega
      have h1 : (0 :: splitPoints targets)[i] = ((targets.map irrepsDim).take i).sum := by
        cases i with
        | zero => simp
        | succ j =>
          rw [List.getElem_cons_succ, splitPoints_getElem]
      have h2 : ((splitPoints targets) ++ [lastD t.array])[i] =
          ((targets.map irrepsDim).take (i + 1)).sum := by
        by_cases hi2 : i < (splitPoints targets).length
        · rw [List.getElem_append_left hi2, splitPoints_getElem]
        · have hi3 : i = (splitPoints targets).length := by
            rw [splitPoints_length] at hi2 ⊢
            omega
          subst hi3
          rw [List.getElem_append_right (le_refl _)]
          simp only [Nat.sub_self, List.getElem_cons_zero]
          rw [splitPoints_length, show targets.length - 1 + 1 = targets.length by omega]
          rw [show (targets.map irrepsDim).take targets.length = targets.map irrepsDim by
            rw [← List.length_map targets irrepsDim]; exact List.take_length _]
          exact hL
      have hpi : (arrSplitLast t.array (splitPoints targets))[i] =
          sliceLastAxis t.array ((targets.map irrepsDim).take i).sum
            ((targets.map irrepsDim).take (i + 1)).sum := by
        unfold arrSplitLast boundaryPairs
        rw [List.getElem_map, List.getElem_zip]
        show sliceLastAxis t.array ((0 :: splitPoints targets)[i])
          (((splitPoints targets) ++ [lastD t.array])[i]) = _
        rw [h1, h2]
      rw [← hxi]
      show mkChecked targets[i] ((arrSplitLast t.array (splitPoints targets))[i]) none =
        some ⟨targets[i], (arrSplitLast t.array (splitPoints targets))[i], none⟩
      rw [hpi]
      unfold mkChecked
      rw [if_pos]
      apply checks_intro
      · show (t.array.shape.dropLast ++
          [min (((targets.map irrepsDim).take (i + 1)).sum) (lastD t.array) -
            min (((targets.map irrepsDim).take i).sum) (lastD t.array)]).getLast? =
          some (irrepsDim targets[i])
        rw [List.getLast?_concat]
        congr 1
        rw [min_eq_left (htake (i + 1) (by omega)), min_eq_left (htake i (by omega))]
        rw [List.sum_take_succ _ i (by rw [List.length_map]; exact hi)]
        rw [List.getElem_map]
        omega
      · intro l2 hl2
        cases hl2
    obtain hrun := mapM_eq_map
      (fun p : Irreps × Arr => mkChecked p.1 p.2 none)
      (fun p : Irreps × Arr => (⟨p.1, p.2, none⟩ : IrrepsArray))
      (targets.zip (arrSplitLast t.array (splitPoints targets))) hmkall
    refine ⟨(targets.zip (arrSplitLast t.array (splitPoints targets))).map
      (fun p => (⟨p.1, p.2, none⟩ : IrrepsArray)), ?_, ?_⟩
    · unfold splitIrrepsT
      rw [if_neg (not_not_intro hs), if_neg (not_not_intro hlenparts)]
      exact hrun
    · intro r hr
      obtain ⟨p, _, hpr⟩ := List.mem_map.mp hr
      have hbl : r.blocks? = none := by rw [← hpr]
      exact ⟨hbl, listOf_none_all_some r hbl⟩
  · intro idxs rs h
    unfold splitIntT at h
    by_cases hc : (arrSplitLast t.array
        (idxs.map (fun i => irrepsDim (t.irreps.take i)))).length ≠ idxs.length + 1
    · rw [if_pos hc] at h
      cases h
    · rw [if_neg hc] at h
      have h2 := mapM_forall2 _ _ _ h
      intro r hr
      obtain ⟨x, _, hxr⟩ := forall2_mem_right h2 r hr
      have := mkChecked_inv hxr
      exact ⟨x.1.1, x.1.2 - x.1.1, by rw [this]⟩

/-- Witness for C10 at the source's doctest example:
`IrrepsArray("0e + 1e", [1,2,3,4]).split(["0e", "1e"])`. -/
theorem c10_witness :
    (splitIrrepsT tMix [[(1, Ir0e)], [(1, Ir1e)]]).isSome = true := by
  obtain ⟨rs, h1, _⟩ := (c10_split_targets_no_none tMix [[(1, Ir0e)], [(1, Ir1e)]]
    (by decide) (by decide) (by decide)).1
  rw [h1]
  rfl

/-! ## Claim C7: reductions that include the final axis -/

theorem foldl_set_length : ∀ (axes : List Nat) (s : List Nat),
    (axes.foldl (fun acc i => acc.set i 1) s).length = s.length := by
  intro axes
  induction axes with
  | nil => intro s; rfl
  | cons x xs ih =>
    intro s
    rw [List.foldl_cons, ih, List.length_set]

theorem foldl_set_append : ∀ (axes : List Nat) (s1 s2 : List Nat),
    (∀ i ∈ axes, i < s1.length) →
    axes.foldl (fun acc i => acc.set i 1) (s1 ++ s2) =
      (axes.foldl (fun acc i => acc.set i 1) s1) ++ s2 := by
  intro axes
  induction axes with
  | nil => intro s1 s2 _; rfl
  | cons x xs ih =>
    intro s1 s2 h
    rw [List.foldl_cons, List.foldl_cons]
    rw [List.set_append, if_pos (h x (List.mem_cons_self x xs))]
    rw [ih (s1.set x 1) s2 (fun i hi => by
      rw [List.length_set]; exact h i (List.mem_cons_of_mem _ hi))]

theorem shapeRed_append (axes : List Nat) (kd : Bool) (s1 s2 : List Nat)
    (h : ∀ i ∈ axes, i < s1.length) :
    shapeRed axes kd (s1 ++ s2) = shapeRed axes kd s1 ++ s2 := by
  unfold shapeRed
  rw [foldl_set_append axes s1 s2 h]
  cases kd with
  | true => simp
  | false =>
    simp only [Bool.false_eq_true, if_false]
    rw [List.enum_append, List.filter_append, List.map_append]
    congr 1
    have hflen : (axes.foldl (fun acc i => acc.set i 1) s1).length = s1.length :=
      foldl_set_length axes s1
    have hkeep : (List.enumFrom (axes.foldl (fun acc i => acc.set i 1) s1).length s2).filter
        (fun p => decide (p.1 ∉ axes)) =
        List.enumFrom (axes.foldl (fun acc i => acc.set i 1) s1).length s2 := by
      rw [List.filter_eq_self]
      intro p hp
      rcases p with ⟨j, v⟩
      have hj := (List.mem_enumFrom hp).1
      rw [decide_eq_true_eq]
      intro hmem
      have := h j hmem
      omega
    rw [hkeep, List.enumFrom_map_snd]

theorem reduceAxes_shape (single : Nat → Arr → Arr)
    (hs : ∀ i a, (single i a).shape = a.shape.set i 1) :
    ∀ (axes : List Nat) (kd : Bool) (a : Arr),
      (reduceAxes single axes kd a).shape = shapeRed axes kd a.shape := by
  have hfold : ∀ (axes : List Nat) (a : Arr),
      (axes.foldl (fun acc i => single i acc) a).shape =
        axes.foldl (fun acc i => acc.set i 1) a.shape := by
    intro axes
    induction axes with
    | nil => intro a; rfl
    | cons x xs ih =>
      intro a
      rw [List.foldl_cons, List.foldl_cons, ih, hs]
  intro axes kd a
  unfold reduceAxes shapeRed
  cases kd with
  | true => simp only [if_true]; exact hfold axes a
  | false =>
    simp only [Bool.false_eq_true, if_false]
    show ((axes.foldl (fun acc i => single i acc) a).shape.enum.filter
      (fun p => decide (p.1 ∉ axes))).map Prod.snd = _
    rw [hfold]

theorem jnpSum_shape (a : Arr) (axes : List Nat) (kd : Bool) :
    (jnpSum a axes kd).shape = shapeRed axes kd a.shape :=
  reduceAxes_shape reduce1Sum (fun _ _ => rfl) axes kd a

theorem jnpMean_shape (a : Arr) (axes : List Nat) (kd : Bool) :
    (jnpMean a axes kd).shape = shapeRed axes kd a.shape :=
  reduceAxes_shape reduce1Mean (fun _ _ => rfl) axes kd a

theorem getLastD_mem {α : Type} : ∀ (l : List α) (d : α), l ≠ [] → l.getLastD d ∈ l := by
  intro l
  induction l with
  | nil => intro d h; exact absurd rfl h
  | cons x xs ih =>
    intro d _
    rw [List.getLastD_cons]
    by_cases hxs : xs = []
    · subst hxs; simp
    · exact List.mem_cons_of_mem x (ih x hxs)

theorem getLastD_default {α : Type} (l : List α) (d1 d2 : α) (h : l ≠ []) :
    l.getLastD d1 = l.getLastD d2 := by
  rw [List.getLastD_eq_getLast?, List.getLastD_eq_getLast?,
    List.getLast?_eq_getLast l h]
  rfl

theorem mem_le_getLastD : ∀ (ax : List Nat), List.Pairwise (· < ·) ax →
    ∀ x ∈ ax, x ≤ ax.getLastD 0 := by
  intro ax
  induction ax with
  | nil => intro _ x hx; cases hx
  | cons a rest ih =>
    intro hp x hx
    have hpc := List.pairwise_cons.mp hp
    rw [List.getLastD_cons]
    rcases List.mem_cons.mp hx with hx | hx
    · subst hx
      by_cases hrest : rest = []
      · subst hrest; simp
      · exact le_of_lt (hpc.1 _ (getLastD_mem rest x hrest))
    · have hne : rest ≠ [] := List.ne_nil_of_mem hx
      rw [getLastD_default rest a 0 hne]
      exact ih hpc.2 x hx

theorem sorted_getLastD (ax : List Nat) (n : Nat) (hp : List.Pairwise (· < ·) ax)
    (hb : ∀ i ∈ ax, i < n) (hm : n - 1 ∈ ax) : ax.getLastD 0 = n - 1 := by
  have hle : n - 1 ≤ ax.getLastD 0 := mem_le_getLastD ax hp (n - 1) hm
  have hne : ax ≠ [] := List.ne_nil_of_mem hm
  have hmem := getLastD_mem ax 0 hne
  have := hb _ hmem
  omega

theorem dropLast_lt_getLastD (ax : List Nat) (hp : List.Pairwise (· < ·) ax)
    (hne : ax ≠ []) : ∀ x ∈ ax.dropLast, x < ax.getLastD 0 := by
  intro x hx
  have hsplit := List.dropLast_append_getLast hne
  rw [← hsplit] at hp
  have hlt := (List.pairwise_append.mp hp).2.2 x hx (ax.getLast hne) (by simp)
  rw [List.getLastD_eq_getLast?, List.getLast?_eq_getLast ax hne]
  exact hlt

theorem standardize_props (axis : Option (List Int)) (ndim : Nat) (ax : List Nat)
    (h : standardizeAxis axis ndim = some ax) :
    List.Pairwise (· < ·) ax ∧ ∀ i ∈ ax, i < ndim := by
  cases axis with
  | none =>
    simp only [standardizeAxis] at h
    injection h with h
    rw [← h]
    exact ⟨List.pairwise_lt_range ndim, fun i hi => List.mem_range.mp hi⟩
  | some l =>
    simp only [standardizeAxis] at h
    by_cases hc : l.all (fun i => decide (-(ndim : Int) ≤ i ∧ i < (ndim : Int))) = true
    · rw [if_pos hc] at h
      injection h with h
      rw [← h]
      refine ⟨List.Pairwise.sublist (List.filter_sublist _) (List.pairwise_lt_range ndim), ?_⟩
      intro i hi
      exact List.mem_range.mp (List.mem_filter.mp hi).1
    · rw [if_neg hc] at h
      cases h

theorem reduceStdAux_congr (op : Arr → List Nat → Bool → Arr) (t : IrrepsArray) (kd : Bool) :
    ∀ (f1 : Nat) (ax : List Nat) (f2 : Nat), ax.length ≤ f1 → ax.length ≤ f2 →
      reduceStdAux op t f1 ax kd = reduceStdAux op t f2 ax kd := by
  intro f1
  induction f1 with
  | zero =>
    intro ax f2 h1 _
    have hax : ax = [] := List.eq_nil_of_length_eq_zero (by omega)
    subst hax
    cases f2 with
    | zero => rfl
    | succ _ => rfl
  | succ g ih =>
    intro ax f2 h1 h2
    cases ax with
    | nil =>
      cases f2 with
      | zero => rfl
      | succ _ => rfl
    | cons a0 ax0 =>
      simp only [List.length_cons] at h1 h2
      cases f2 with
      | zero => omega
      | succ g2 =>
        simp only [reduceStdAux]
        rw [ih ((a0 :: ax0).dropLast) g2
          (by simp only [List.length_dropLast, List.length_cons]; omega)
          (by simp only [List.length_dropLast, List.length_cons]; omega)]

theorem reduceStd_nil (op : Arr → List Nat → Bool → Arr) (t : IrrepsArray) (kd : Bool) :
    reduceStd op t [] kd = some t := rfl

theorem reduceStd_cons (op : Arr → List Nat → Bool → Arr) (t : IrrepsArray)
    (a0 : Nat) (ax0 : List Nat) (kd : Bool) :
    reduceStd op t (a0 :: ax0) kd =
      if (a0 :: ax0).getLastD 0 < t.array.shape.length - 1 then
        mkChecked t.irreps (op t.array (a0 :: ax0) kd)
          (some ((listOf t).map (fun x => x.map (fun b => op b (a0 :: ax0) kd))))
      else
        match reduceStd op t ((a0 :: ax0).dropLast) kd with
        | none => none
        | some t1 =>
          from_list (t1.irreps.map (fun mi => (1, mi.2)))
            ((listOf t1).map (fun x => x.map (fun b => op b [b.shape.length - 2] true)))
            t1.array.shape.dropLast := by
  show reduceStdAux op t (ax0.length + 1) (a0 :: ax0) kd = _
  simp only [reduceStdAux]
  rw [reduceStdAux_congr op t kd ax0.length ((a0 :: ax0).dropLast) ((a0 :: ax0).dropLast).length
    (by simp only [List.length_dropLast, List.length_cons]; omega) (le_refl _)]
  rfl

theorem listOf_shapes_checks (t : IrrepsArray)
    (hc : checksOk t.irreps t.array t.blocks? = true) :
    List.Forall₂ (BlockShaped t.array.shape.dropLast) (listOf t) t.irreps := by
  obtain ⟨_, hbl⟩ := checks_unpack _ _ _ hc
  cases hb : t.blocks? with
  | some l =>
    rw [listOf, hb]
    exact (hbl l hb).2
  | none =>
    rw [listOf, hb]
    unfold deriveList
    rcases hI : t.irreps with _ | ⟨⟨m, i⟩, _ | ⟨mi2, rest⟩⟩
    · exact List.Forall₂.nil
    · exact List.Forall₂.cons (by intro b hb2; cases hb2; rfl) List.Forall₂.nil
    · exact derive_forall2 t.array ((m, i) :: mi2 :: rest) 0

theorem mkChecked_checks {I : Irreps} {a : Arr} {bl : Option (List (Option Arr))}
    {r : IrrepsArray} (h : mkChecked I a bl = some r) :
    checksOk r.irreps r.array r.blocks? = true := by
  unfold mkChecked at h
  by_cases hc : checksOk I a bl = true
  · rw [if_pos hc] at h
    injection h with h
    rw [← h]
    exact hc
  · rw [if_neg hc] at h
    cases h

theorem shapeRed_single (i : Nat) (s : List Nat) : shapeRed [i] true s = s.set i 1 := by
  simp [shapeRed]

theorem reduceStd_last (op : Arr → List Nat → Bool → Arr)
    (hop : ∀ a axes kd2, (op a axes kd2).shape = shapeRed axes kd2 a.shape)
    (t : IrrepsArray) (hw : WF t) (ax : List Nat) (kd : Bool)
    (hp : List.Pairwise (· < ·) ax)
    (hb : ∀ i ∈ ax, i < t.array.shape.length)
    (hm : t.array.shape.length - 1 ∈ ax) :
    ∃ r, reduceStd op t ax kd = some r ∧
      r.irreps = t.irreps.map (fun mi => (1, mi.2)) := by
  have hnd : 0 < t.array.shape.length := by
    obtain ⟨hc2, _, _⟩ := hw
    obtain ⟨hg, _⟩ := checks_unpack _ _ _ hc2
    cases hsh2 : t.array.shape with
    | nil => rw [hsh2] at hg; simp at hg
    | cons _ _ => simp [hsh2]
  have hlast : ax.getLastD 0 = t.array.shape.length - 1 := sorted_getLastD ax _ hp hb hm
  have hne : ax ≠ [] := List.ne_nil_of_mem hm
  have hshape_t : t.array.shape = t.array.shape.dropLast ++ [irrepsDim t.irreps] :=
    shape_decomp t hw
  have hlead_len : t.array.shape.dropLast.length = t.array.shape.length - 1 := by
    rw [List.length_dropLast]
  have hdl_bound : ∀ i ∈ ax.dropLast, i < t.array.shape.dropLast.length := by
    intro i hi
    have h1 := dropLast_lt_getLastD ax hp hne i hi
    rw [hlast] at h1
    omega
  have hstage : ∃ t1, reduceStd op t ax.dropLast kd = some t1 ∧
      t1.irreps = t.irreps ∧ checksOk t1.irreps t1.array t1.blocks? = true := by
    cases hdrop : ax.dropLast with
    | nil => exact ⟨t, reduceStd_nil op t kd, rfl, hw.1⟩
    | cons b0 bx =>
      have hbound2 : ∀ i ∈ (b0 :: bx), i < t.array.shape.dropLast.length := by
        intro i hi
        apply hdl_bound
        rw [hdrop]
        exact hi
      have hbufshape : (op t.array (b0 :: bx) kd).shape =
          shapeRed (b0 :: bx) kd t.array.shape.dropLast ++ [irrepsDim t.irreps] := by
        rw [hop]
        conv_lhs => rw [hshape_t]
        exact shapeRed_append _ _ _ _ hbound2
      have hchecks : checksOk t.irreps (op t.array (b0 :: bx) kd)
          (some ((listOf t).map (fun x => x.map (fun b => op b (b0 :: bx) kd)))) = true := by
        apply checks_intro
        · rw [hbufshape]
          exact List.getLast?_concat _
        · intro l hl
          injection hl with hl
          rw [← hl]
          constructor
          · rw [List.length_map]
            exact listOf_length t hw
          · rw [List.forall₂_map_left_iff]
            apply (listOf_shapes t hw).imp
            intro x mi hx b hb2
            cases x with
            | none => cases hb2
            | some a =>
              simp only [Option.map_some'] at hb2
              injection hb2 with hb2
              rw [← hb2, hop]
              have ha := hx a rfl
              rw [ha, shapeRed_append _ _ _ _ hbound2]
              rw [hbufshape, List.dropLast_concat]
        -- end checks
      refine ⟨⟨t.irreps, op t.array (b0 :: bx) kd,
        some ((listOf t).map (fun x => x.map (fun b => op b (b0 :: bx) kd)))⟩, ?_, rfl, hchecks⟩
      rw [reduceStd_cons]
      rw [if_pos (by
        have := hbound2 ((b0 :: bx).getLastD 0) (getLastD_mem _ 0 (List.cons_ne_nil b0 bx))
        omega)]
      unfold mkChecked
      rw [if_pos hchecks]
  obtain ⟨t1, ht1, ht1i, ht1c⟩ := hstage
  rcases hax : ax with _ | ⟨a0, ax0⟩
  · exact absurd hax hne
  rw [reduceStd_cons]
  rw [if_neg (by rw [← hax, hlast]; exact lt_irrefl _)]
  rw [← hax, ht1]
  have hfor1 := listOf_shapes_checks t1 ht1c
  have hlen1 : t1.irreps.length = (listOf t1).length := hfor1.length_eq.symm
  have hsh2 : List.Forall₂ (BlockShaped t1.array.shape.dropLast)
      ((listOf t1).map (fun x => x.map (fun b => op b [b.shape.length - 2] true)))
      (t1.irreps.map (fun mi => (1, mi.2))) := by
    rw [List.forall₂_map_left_iff, List.forall₂_map_right_iff]
    apply hfor1.imp
    intro x mi hx b hb2
    cases x with
    | none => cases hb2
    | some a =>
      simp only [Option.map_some'] at hb2
      injection hb2 with hb2
      rw [← hb2, hop, shapeRed_single]
      have ha := hx a rfl
      rw [ha]
      rw [show (t1.array.shape.dropLast ++ [mi.1, irDim mi.2]).length - 2 =
        t1.array.shape.dropLast.length + 0 by simp]
      rw [set_append_right]
      rfl
  obtain ⟨a2, ha2, _⟩ := from_list_some (t1.irreps.map (fun mi => (1, mi.2)))
    ((listOf t1).map (fun x => x.map (fun b => op b [b.shape.length - 2] true)))
    t1.array.shape.dropLast (by rw [List.length_map, List.length_map, hlen1]) hsh2
  refine ⟨_, ha2, ?_⟩
  show (t1.irreps.map (fun mi => (1, mi.2))) = t.irreps.map (fun mi => (1, mi.2))
  rw [ht1i]

/-- C7: for every well-formed typed tensor and every reduction axis request
whose standardized set includes the final (irrep) axis, `mean` and `sum`
succeed (first reducing the other requested axes, then reducing each block
along its multiplicity axis — the two-stage structure of `_reduce`) and the
resulting spec has every multiplicity equal to 1 with the irrep tags
unchanged and in order. -/
theorem c7_reduce_including_last (t : IrrepsArray) (hw : WF t)
    (axis : Option (List Int)) (kd : Bool) (ax : List Nat)
    (hst : standardizeAxis axis t.array.shape.length = some ax)
    (hmem : t.array.shape.length - 1 ∈ ax) :
    (∃ r, meanIA t axis kd = some r ∧ r.irreps = t.irreps.map (fun mi => (1, mi.2))) ∧
    (∃ r, sumIA t axis kd = some r ∧ r.irreps = t.irreps.map (fun mi => (1, mi.2))) := by
  obtain ⟨hp, hb⟩ := standardize_props axis _ ax hst
  constructor
  · unfold meanIA reduceIA
    rw [hst]
    exact reduceStd_last jnpMean jnpMean_shape t hw ax kd hp hb hmem
  · unfold sumIA reduceIA
    rw [hst]
    exact reduceStd_last jnpSum jnpSum_shape t hw ax kd hp hb hmem

/-- Witness for C7: summing a concrete `1x0e + 1x1e` tensor over all axes
(which includes the final axis) collapses every multiplicity to 1. -/
theorem c7_witness :
    (sumIA tMix none false).map (fun r => r.irreps) = some [(1, Ir0e), (1, Ir1e)] := by
  obtain ⟨r, h1, h2⟩ := (c7_reduce_including_last tMix (by decide) none false [0]
    (by decide) (by decide)).2
  rw [h1, Option.map_some', h2]
  rfl

/-! ## Shape bookkeeping for the `convert` machinery -/

theorem shape2_facts (a : Arr) (X : List Nat) (p q : Nat) (h : a.shape = X ++ [p, q]) :
    dim2 a = p ∧ lastD a = q ∧ a.shape.dropLast.dropLast = X := by
  have h2 : a.shape = (X ++ [p]) ++ [q] := by rw [h]; simp
  have hdl : a.shape.dropLast = X ++ [p] := by rw [h2, List.dropLast_concat]
  refine ⟨?_, ?_, ?_⟩
  · rw [dim2, hdl, List.getLastD_concat]
  · rw [lastD, h2, List.getLastD_concat]
  · rw [hdl, List.dropLast_concat]

theorem splitN2_shapes (a : Arr) (X : List Nat) (p q k : Nat) (h : a.shape = X ++ [p, q]) :
    (splitN2 a k).1.shape = X ++ [k, q] ∧ (splitN2 a k).2.shape = X ++ [p - k, q] := by
  obtain ⟨h1, h2, h3⟩ := shape2_facts a X p q h
  constructor
  · show a.shape.dropLast.dropLast ++ [k, lastD a] = X ++ [k, q]
    rw [h2, h3]
  · show a.shape.dropLast.dropLast ++ [dim2 a - k, lastD a] = X ++ [p - k, q]
    rw [h1, h2, h3]

theorem forall2_append_my {α β : Type} {R : α → β → Prop} :
    ∀ {l1 : List α} {l2 : List β} {u1 : List α} {u2 : List β},
      List.Forall₂ R l1 l2 → List.Forall₂ R u1 u2 → List.Forall₂ R (l1 ++ u1) (l2 ++ u2) := by
  intro l1 l2 u1 u2 h1 h2
  induction h1 with
  | nil => exact h2
  | cons ha _ ih => exact List.Forall₂.cons ha ih

theorem forall2_map_none {R : Option Arr → MulIr → Prop} (h : ∀ mi, R none mi) :
    ∀ zs : Irreps, List.Forall₂ R (zs.map fun _ => (none : Option Arr)) zs
  | [] => List.Forall₂.nil
  | mi :: r => List.Forall₂.cons (h mi) (forall2_map_none h r)

theorem forall2_zip_mem {α β : Type} {R : α → β → Prop} :
    ∀ {bs : List α} {as : List β}, List.Forall₂ R bs as →
      ∀ q ∈ List.zip as bs, R q.2 q.1 := by
  intro bs as h
  induction h with
  | nil => intro q hq; simp at hq
  | cons ha _ ih =>
    intro q hq
    rw [List.zip_cons_cons] at hq
    rcases List.mem_cons.mp hq with h1 | h2
    · subst h1; exact ha
    · exact ih q h2

theorem consume_props (leading : List Nat) (d m : Nat) (x : Option Arr) (cur : Accum)
    (hx : ∀ a, x = some a → a.shape = leading ++ [m, d])
    (hcur : ∀ a, cur = Accum.arr a → a.shape = leading ++ [dim2 a, d]) :
    accMul (consumeAcc leading d m x cur) = accMul cur + m ∧
    ∀ a2, consumeAcc leading d m x cur = Accum.arr a2 →
      a2.shape = leading ++ [accMul cur + m, d] := by
  cases x with
  | none =>
    cases cur with
    | cnt c =>
      refine ⟨rfl, ?_⟩
      intro a2 h
      cases h
    | arr a =>
      have ha := hcur a rfl
      have hz : (zerosArr (leading ++ [m, d])).shape = leading ++ [m, d] := rfl
      obtain ⟨_, hlda, hdla⟩ := shape2_facts a leading (dim2 a) d ha
      obtain ⟨hd2z, _, _⟩ := shape2_facts (zerosArr (leading ++ [m, d])) leading m d hz
      have hcat : (cat2 a (zerosArr (leading ++ [m, d]))).shape =
          leading ++ [dim2 a + m, d] := by
        show a.shape.dropLast.dropLast ++
          [dim2 a + dim2 (zerosArr (leading ++ [m, d])), lastD a] = _
        rw [hdla, hd2z, hlda]
      refine ⟨?_, ?_⟩
      · show dim2 (cat2 a (zerosArr (leading ++ [m, d]))) = dim2 a + m
        exact (shape2_facts _ leading (dim2 a + m) d hcat).1
      · intro a2 h
        injection h with h2
        rw [← h2]
        exact hcat
  | some xa =>
    have hxa := hx xa rfl
    obtain ⟨hd2x, hldx, hdlx⟩ := shape2_facts xa leading m d hxa
    cases cur with
    | cnt c =>
      by_cases hc0 : c = 0
      · subst hc0
        have hcons : consumeAcc leading d m (some xa) (Accum.cnt 0) = Accum.arr xa := rfl
        rw [hcons]
        refine ⟨?_, ?_⟩
        · show dim2 xa = 0 + m
          omega
        · intro a2 h
          injection h with h2
          rw [← h2, hxa]
          show leading ++ [m, d] = leading ++ [0 + m, d]
          simp
      · have hz : (zerosArr (leading ++ [c, d])).shape = leading ++ [c, d] := rfl
        obtain ⟨hd2z, hldz, hdlz⟩ := shape2_facts (zerosArr (leading ++ [c, d])) leading c d hz
        have hcons : consumeAcc leading d m (some xa) (Accum.cnt c) =
            Accum.arr (cat2 (zerosArr (leading ++ [c, d])) xa) := by
          simp only [consumeAcc]
          rw [if_neg hc0]
        have hcat : (cat2 (zerosArr (leading ++ [c, d])) xa).shape = leading ++ [c + m, d] := by
          show (zerosArr (leading ++ [c, d])).shape.dropLast.dropLast ++
            [dim2 (zerosArr (leading ++ [c, d])) + dim2 xa, lastD (zerosArr (leading ++ [c, d]))] = _
          rw [hdlz, hd2z, hd2x, hldz]
        rw [hcons]
        refine ⟨?_, ?_⟩
        · show dim2 (cat2 (zerosArr (leading ++ [c, d])) xa) = c + m
          exact (shape2_facts _ leading (c + m) d hcat).1
        · intro a2 h
          injection h with h2
          rw [← h2]
          exact hcat
    | arr a =>
      have ha := hcur a rfl
      obtain ⟨_, hlda, hdla⟩ := shape2_facts a leading (dim2 a) d ha
      have hcat : (cat2 a xa).shape = leading ++ [dim2 a + m, d] := by
        show a.shape.dropLast.dropLast ++ [dim2 a + dim2 xa, lastD a] = _
        rw [hdla, hd2x, hlda]
      refine ⟨?_, ?_⟩
      · show dim2 (cat2 a xa) = dim2 a + m
        exact (shape2_facts _ leading (dim2 a + m) d hcat).1
      · intro a2 h
        injection h with h2
        rw [← h2]
        exact hcat

theorem skipZeros_spec : ∀ T : List MulIr,
    ∃ zs, T = zs ++ (skipZeros T).2 ∧
      (skipZeros T).1 = zs.map (fun _ => (none : Option Arr)) ∧
      (∀ mi ∈ zs, mi.1 = 0) ∧
      (∀ tm ti Tr, (skipZeros T).2 = (tm, ti) :: Tr → tm ≠ 0) ∧
      expandIr (skipZeros T).2 = expandIr T := by
  intro T
  induction T with
  | nil =>
    refine ⟨[], rfl, rfl, by simp, ?_, rfl⟩
    intro tm ti Tr h
    cases h
  | cons mi rest ih =>
    obtain ⟨m, i⟩ := mi
    by_cases hm : m = 0
    · subst hm
      obtain ⟨zs, h1, h2, h3, h4, h5⟩ := ih
      have hsk : skipZeros ((0, i) :: rest) =
          (none :: (skipZeros rest).1, (skipZeros rest).2) := rfl
      refine ⟨(0, i) :: zs, ?_, ?_, ?_, ?_, ?_⟩
      · rw [hsk]
        show (0, i) :: rest = (0, i) :: (zs ++ (skipZeros rest).2)
        conv_lhs => rw [h1]
      · rw [hsk]
        show none :: (skipZeros rest).1 = none :: zs.map (fun _ => (none : Option Arr))
        rw [h2]
      · intro mi2 hmem
        rcases List.mem_cons.mp hmem with hA | hB
        · rw [hA]
        · exact h3 mi2 hB
      · rw [hsk]
        exact h4
      · rw [hsk]
        show expandIr (skipZeros rest).2 = expandIr ((0, i) :: rest)
        rw [h5]
        simp [expandIr_cons]
    · have hsk : skipZeros ((m, i) :: rest) = ([], (m, i) :: rest) := by
        simp only [skipZeros]
        rw [if_neg hm]
      refine ⟨[], by rw [hsk]; rfl, by rw [hsk]; rfl, by simp, ?_, by rw [hsk]⟩
      rw [hsk]
      intro tm ti Tr h
      have h' : (m, i) :: rest = (tm, ti) :: Tr := h
      injection h' with hA hB
      cases hA
      exact hm

theorem stinv_head_shape (leading : List Nat) (ir : Ir) (tm : Nat) (Tr : List MulIr)
    (cur : Accum) (hinv : StInv leading ((tm, ir) :: Tr) cur) :
    ∀ a, cur = Accum.arr a → a.shape = leading ++ [dim2 a, irDim ir] := by
  intro a ha
  obtain ⟨tm2, ti2, Tr2, he, hsh⟩ := hinv.2.1 a ha
  have he2 : (tm, ir) = (tm2, ti2) := by injection he
  have he3 : ti2 = ir := by
    have := congrArg Prod.snd he2
    exact this.symm
  rw [he3] at hsh
  exact hsh

theorem step_noseal (leading : List Nat) (ir : Ir) (tm : Nat) (Tr : List MulIr)
    (cur : Accum) (mstep : Nat) (x : Option Arr)
    (hx : BlockArg leading mstep (irDim ir) x)
    (hinv : StInv leading ((tm, ir) :: Tr) cur)
    (hlt : accMul cur + mstep < tm) :
    sealSkip tm ir Tr (consumeAcc leading (irDim ir) mstep x cur) =
      ([], (tm, ir) :: Tr, consumeAcc leading (irDim ir) mstep x cur) ∧
    accMul (consumeAcc leading (irDim ir) mstep x cur) = accMul cur + mstep ∧
    StInv leading ((tm, ir) :: Tr) (consumeAcc leading (irDim ir) mstep x cur) := by
  obtain ⟨hacc, hsh2⟩ := consume_props leading (irDim ir) mstep x cur hx
    (stinv_head_shape leading ir tm Tr cur hinv)
  have hseal : sealSkip tm ir Tr (consumeAcc leading (irDim ir) mstep x cur) =
      ([], (tm, ir) :: Tr, consumeAcc leading (irDim ir) mstep x cur) := by
    cases hcc : consumeAcc leading (irDim ir) mstep x cur with
    | cnt c =>
      have hcne : c ≠ tm := by
        have h2 := hacc
        rw [hcc] at h2
        have h2' : c = accMul cur + mstep := h2
        omega
      simp only [sealSkip]
      rw [if_neg hcne]
    | arr a =>
      have hdne : dim2 a ≠ tm := by
        have h2 := hacc
        rw [hcc] at h2
        have h2' : dim2 a = accMul cur + mstep := h2
        omega
      simp only [sealSkip]
      rw [if_neg hdne]
  refine ⟨hseal, hacc, ?_, ?_, ?_⟩
  · intro tm2 ti2 Tr2 he
    have he2 : tm2 = tm := by
      have h' : (tm, ir) = (tm2, ti2) := by injection he
      have := congrArg Prod.fst h'
      exact this.symm
    rw [he2]
    exact ⟨(hinv.1 tm ir Tr rfl).1, by omega⟩
  · intro a ha
    refine ⟨tm, ir, Tr, rfl, ?_⟩
    have h3 := hacc
    rw [ha] at h3
    have h3' : dim2 a = accMul cur + mstep := h3
    have h4 := hsh2 a ha
    rw [h4, ← h3']
  · intro h
    cases h

theorem step_seal (leading : List Nat) (ir : Ir) (tm : Nat) (Tr : List MulIr)
    (cur : Accum) (mstep : Nat) (x : Option Arr)
    (hx : BlockArg leading mstep (irDim ir) x)
    (hinv : StInv leading ((tm, ir) :: Tr) cur)
    (heq : accMul cur + mstep = tm) :
    ∃ em T2,
      sealSkip tm ir Tr (consumeAcc leading (irDim ir) mstep x cur) = (em, T2, Accum.cnt 0) ∧
      (∃ zs, Tr = zs ++ T2 ∧
        List.Forall₂ (BlockShaped leading) em ((tm, ir) :: zs) ∧
        expandIr T2 = expandIr Tr) ∧
      StInv leading T2 (Accum.cnt 0) := by
  obtain ⟨hacc, hsh2⟩ := consume_props leading (irDim ir) mstep x cur hx
    (stinv_head_shape leading ir tm Tr cur hinv)
  obtain ⟨zs, hzs, hfst, hz0, hhead, hexp⟩ := skipZeros_spec Tr
  have hinv2 : StInv leading (skipZeros Tr).2 (Accum.cnt 0) := by
    refine ⟨?_, ?_, fun _ => rfl⟩
    · intro tm2 ti2 Tr2 he
      have hne := hhead tm2 ti2 Tr2 he
      refine ⟨Nat.pos_of_ne_zero hne, ?_⟩
      show (0 : Nat) < tm2
      exact Nat.pos_of_ne_zero hne
    · intro a ha
      cases ha
  cases hcc : consumeAcc leading (irDim ir) mstep x cur with
  | cnt c =>
    have hc : c = tm := by
      have h2 := hacc
      rw [hcc] at h2
      have h2' : c = accMul cur + mstep := h2
      omega
    refine ⟨none :: (skipZeros Tr).1, (skipZeros Tr).2, ?_, ⟨zs, hzs, ?_, hexp⟩, hinv2⟩
    · simp only [sealSkip]
      rw [if_pos hc]
    · rw [hfst]
      exact List.Forall₂.cons (fun b hb => Option.noConfusion hb)
        (forall2_map_none (fun mi b hb => Option.noConfusion hb) zs)
  | arr a =>
    have hd : dim2 a = tm := by
      have h2 := hacc
      rw [hcc] at h2
      have h2' : dim2 a = accMul cur + mstep := h2
      omega
    refine ⟨some a :: (skipZeros Tr).1, (skipZeros Tr).2, ?_, ⟨zs, hzs, ?_, hexp⟩, hinv2⟩
    · simp only [sealSkip]
      rw [if_pos hd]
    · rw [hfst]
      refine List.Forall₂.cons ?_ (forall2_map_none (fun mi b hb => Option.noConfusion hb) zs)
      intro b hb
      injection hb with hb2
      rw [← hb2]
      have h4 := hsh2 a hcc
      rw [heq] at h4
      exact h4

theorem feedAux_ok (leading : List Nat) (ir : Ir) :
    ∀ fuel mul : Nat, mul ≤ fuel →
      ∀ (y : Option Arr) (cur : Accum) (T : List MulIr) (R : List Ir),
        BlockArg leading mul (irDim ir) y →
        (expandIr T).drop (accMul cur) = List.replicate mul ir ++ R →
        StInv leading T cur →
        ∃ em T2 cur2 popped,
          feedOneAux leading (irDim ir) fuel mul y cur T = some (em, T2, cur2) ∧
          T = popped ++ T2 ∧
          List.Forall₂ (BlockShaped leading) em popped ∧
          StInv leading T2 cur2 ∧
          (expandIr T2).drop (accMul cur2) = R := by
  intro fuel
  induction fuel with
  | zero =>
    intro mul hf y cur T R hy hpre hinv
    have hm0 : mul = 0 := by omega
    subst hm0
    refine ⟨[], T, cur, [], rfl, rfl, List.Forall₂.nil, hinv, ?_⟩
    simpa using hpre
  | succ g ih =>
    intro mul hf y cur T R hy hpre hinv
    cases mul with
    | zero =>
      refine ⟨[], T, cur, [], rfl, rfl, List.Forall₂.nil, hinv, ?_⟩
      simpa using hpre
    | succ m =>
      cases T with
      | nil =>
        exfalso
        have hnil : (expandIr ([] : List MulIr)).drop (accMul cur) = [] := by
          show (([] : List Ir)).drop (accMul cur) = []
          exact List.drop_nil
        rw [hnil] at hpre
        rw [List.replicate_succ] at hpre
        cases hpre
      | cons head Tr =>
        obtain ⟨tm, ti⟩ := head
        have hhead := hinv.1 tm ti Tr rfl
        have hcm : accMul cur < tm := hhead.2
        have h1 : (expandIr ((tm, ti) :: Tr)).drop (accMul cur) =
            List.replicate (tm - accMul cur) ti ++ expandIr Tr := by
          simp only [expandIr_cons]
          rw [List.drop_append_of_le_length (by simp [List.length_replicate]; omega),
            List.drop_replicate]
        obtain ⟨k, hk⟩ : ∃ k, tm - accMul cur = k + 1 := ⟨tm - accMul cur - 1, by omega⟩
        rw [h1, hk, List.replicate_succ, List.replicate_succ] at hpre
        simp only [List.cons_append] at hpre
        injection hpre with hti htail
        subst hti
        have hneed0 : ¬ (tm - accMul cur = 0) := by omega
        have hunfold : feedOneAux leading (irDim ti) (g + 1) (m + 1) y cur ((tm, ti) :: Tr) =
            (if tm - accMul cur = 0 then none
             else if m + 1 ≤ tm - accMul cur then
               some (sealSkip tm ti Tr (consumeAcc leading (irDim ti) (m + 1) y cur))
             else
               match feedOneAux leading (irDim ti) g (m + 1 - (tm - accMul cur))
                   (y.map (fun a => (splitN2 a (tm - accMul cur)).2))
                   (sealSkip tm ti Tr (consumeAcc leading (irDim ti) (tm - accMul cur)
                     (y.map (fun a => (splitN2 a (tm - accMul cur)).1)) cur)).2.2
                   (sealSkip tm ti Tr (consumeAcc leading (irDim ti) (tm - accMul cur)
                     (y.map (fun a => (splitN2 a (tm - accMul cur)).1)) cur)).2.1 with
               | none => none
               | some r =>
                 some ((sealSkip tm ti Tr (consumeAcc leading (irDim ti) (tm - accMul cur)
                   (y.map (fun a => (splitN2 a (tm - accMul cur)).1)) cur)).1 ++ r.1,
                   r.2.1, r.2.2)) := rfl
        rw [hunfold, if_neg hneed0]
        by_cases hle : m + 1 ≤ tm - accMul cur
        · rw [if_pos hle]
          rcases Nat.lt_or_ge m k with hmk | hmk
          · have hlt : accMul cur + (m + 1) < tm := by omega
            obtain ⟨hseq, hacc, hinv2⟩ :=
              step_noseal leading ti tm Tr cur (m + 1) y hy hinv hlt
            refine ⟨[], (tm, ti) :: Tr, consumeAcc leading (irDim ti) (m + 1) y cur, [],
              by rw [hseq], rfl, List.Forall₂.nil, hinv2, ?_⟩
            rw [hacc]
            have e1 : (expandIr ((tm, ti) :: Tr)).drop (accMul cur + (m + 1)) =
                ((expandIr ((tm, ti) :: Tr)).drop (accMul cur)).drop (m + 1) := by
              rw [List.drop_drop]
            rw [e1, h1, hk]
            rw [List.drop_append_of_le_length (by simp [List.length_replicate]; omega),
              List.drop_replicate]
            have e2 := congrArg (List.drop m) htail
            rw [List.drop_append_of_le_length (by simp [List.length_replicate]; omega),
              List.drop_replicate,
              List.drop_append_of_le_length (by simp [List.length_replicate]),
              List.drop_replicate] at e2
            simp only [Nat.sub_self, List.replicate_zero, List.nil_append] at e2
            have e3 : k + 1 - (m + 1) = k - m := by omega
            rw [e3]
            exact e2
          · have hmk2 : m = k := by omega
            subst hmk2
            have heq2 : accMul cur + (m + 1) = tm := by omega
            obtain ⟨em1, T2', hseq, ⟨zs, hzs, hfa1, hexpT2⟩, hinv2⟩ :=
              step_seal leading ti tm Tr cur (m + 1) y hy hinv heq2
            refine ⟨em1, T2', Accum.cnt 0, (tm, ti) :: zs, by rw [hseq], ?_, hfa1, hinv2, ?_⟩
            · rw [hzs]
              rfl
            · show (expandIr T2').drop 0 = R
              rw [List.drop_zero, hexpT2]
              have e2 := congrArg (List.drop m) htail
              rw [List.drop_append_of_le_length (by simp [List.length_replicate]),
                List.drop_replicate,
                List.drop_append_of_le_length (by simp [List.length_replicate]),
                List.drop_replicate] at e2
              simp only [Nat.sub_self, List.replicate_zero, List.nil_append] at e2
              exact e2
        · rw [if_neg hle]
          have hkm : k < m := by omega
          have hx1 : BlockArg leading (tm - accMul cur) (irDim ti)
              (y.map (fun a => (splitN2 a (tm - accMul cur)).1)) := by
            intro a ha
            rw [Option.map_eq_some'] at ha
            obtain ⟨b, hb, hba⟩ := ha
            rw [← hba]
            exact (splitN2_shapes b leading (m + 1) (irDim ti) (tm - accMul cur) (hy b hb)).1
          have hy2 : BlockArg leading (m + 1 - (tm - accMul cur)) (irDim ti)
              (y.map (fun a => (splitN2 a (tm - accMul cur)).2)) := by
            intro a ha
            rw [Option.map_eq_some'] at ha
            obtain ⟨b, hb, hba⟩ := ha
            rw [← hba]
            exact (splitN2_shapes b leading (m + 1) (irDim ti) (tm - accMul cur) (hy b hb)).2
          have heq2 : accMul cur + (tm - accMul cur) = tm := by omega
          obtain ⟨em1, T2', hseq, ⟨zs, hzs, hfa1, hexpT2⟩, hinv2⟩ :=
            step_seal leading ti tm Tr cur (tm - accMul cur)
              (y.map (fun a => (splitN2 a (tm - accMul cur)).1)) hx1 hinv heq2
          have hpre2 : (expandIr T2').drop (accMul (Accum.cnt 0)) =
              List.replicate (m + 1 - (tm - accMul cur)) ti ++ R := by
            show (expandIr T2').drop 0 = _
            rw [List.drop_zero, hexpT2]
            have e2 := congrArg (List.drop k) htail
            rw [List.drop_append_of_le_length (by simp [List.length_replicate]),
              List.drop_replicate,
              List.drop_append_of_le_length (by simp [List.length_replicate]; omega),
              List.drop_replicate] at e2
            simp only [Nat.sub_self, List.replicate_zero, List.nil_append] at e2
            rw [hk]
            have e3 : m + 1 - (k + 1) = m - k := by omega
            rw [e3]
            exact e2
          obtain ⟨em2, T3, cur3, popped2, heval2, hdec2, hfa2, hinv3, hexp3⟩ :=
            ih (m + 1 - (tm - accMul cur)) (by omega)
              (y.map (fun a => (splitN2 a (tm - accMul cur)).2))
              (Accum.cnt 0) T2' R hy2 hpre2 hinv2
          refine ⟨em1 ++ em2, T3, cur3, ((tm, ti) :: zs) ++ popped2, ?_, ?_,
            forall2_append_my hfa1 hfa2, hinv3, hexp3⟩
          · simp only [hseq, heval2]
          · rw [hzs, hdec2]
            simp [List.cons_append, List.append_assoc]

theorem feedAll_ok (leading : List Nat) :
    ∀ (src : List (MulIr × Option Arr)) (cur : Accum) (T : List MulIr),
      (∀ q ∈ src, BlockArg leading q.1.1 (irDim q.1.2) q.2) →
      (expandIr T).drop (accMul cur) = expandIr (src.map Prod.fst) →
      StInv leading T cur →
      ∃ em T2 cur2 popped,
        feedAll leading src cur T = some (em, T2, cur2) ∧
        T = popped ++ T2 ∧
        List.Forall₂ (BlockShaped leading) em popped ∧
        StInv leading T2 cur2 ∧
        (expandIr T2).drop (accMul cur2) = [] := by
  intro src
  induction src with
  | nil =>
    intro cur T hsrc hexp hinv
    exact ⟨[], T, cur, [], rfl, rfl, List.Forall₂.nil, hinv, hexp⟩
  | cons hd rest ih =>
    intro cur T hsrc hexp hinv
    obtain ⟨⟨m, i⟩, y⟩ := hd
    simp only [List.map_cons, expandIr_cons] at hexp
    obtain ⟨em1, T1, cur1, popped1, heval1, hdec1, hfa1, hinv1, hexp1⟩ :=
      feedAux_ok leading i m m (le_refl m) y cur T (expandIr (rest.map Prod.fst))
        (hsrc ((m, i), y) (List.mem_cons_self _ _)) hexp hinv
    obtain ⟨em2, T2, cur2, popped2, heval2, hdec2, hfa2, hinv2, hexp2⟩ :=
      ih cur1 T1 (fun q hq => hsrc q (List.mem_cons_of_mem _ hq)) hexp1 hinv1
    refine ⟨em1 ++ em2, T2, cur2, popped1 ++ popped2, ?_,
      by rw [hdec1, hdec2, List.append_assoc], forall2_append_my hfa1 hfa2, hinv2, hexp2⟩
    have hfo : feedOne leading (irDim i) m y cur T = some (em1, T1, cur1) := heval1
    simp only [feedAll, hfo, heval2]

theorem convertT_ok (t : IrrepsArray) (I : Irreps)
    (hc : checksOk t.irreps t.array t.blocks? = true)
    (hs : simplifyI t.irreps = simplifyI I) :
    ∃ u, convertT t I = some u ∧ u.irreps = I ∧ u.array = t.array ∧
      checksOk u.irreps u.array u.blocks? = true := by
  obtain ⟨zs0, hI0, hfst0, hz0, hhead0, hexpP⟩ := skipZeros_spec I
  have hlshapes := listOf_shapes_checks t hc
  have hsrc : ∀ q ∈ List.zip t.irreps (listOf t),
      BlockArg t.array.shape.dropLast q.1.1 (irDim q.1.2) q.2 := by
    intro q hq
    exact forall2_zip_mem hlshapes q hq
  have hmapfst : (List.zip t.irreps (listOf t)).map Prod.fst = t.irreps :=
    List.map_fst_zip _ _ (le_of_eq hlshapes.length_eq.symm)
  have hexp0 : (expandIr (skipZeros I).2).drop (accMul (Accum.cnt 0)) =
      expandIr ((List.zip t.irreps (listOf t)).map Prod.fst) := by
    show (expandIr (skipZeros I).2).drop 0 = _
    rw [List.drop_zero, hexpP, hmapfst]
    exact (expand_eq_of_simplify_eq hs).symm
  have hinv0 : StInv t.array.shape.dropLast (skipZeros I).2 (Accum.cnt 0) := by
    refine ⟨?_, ?_, fun _ => rfl⟩
    · intro tm ti Tr he
      have hne := hhead0 tm ti Tr he
      refine ⟨Nat.pos_of_ne_zero hne, ?_⟩
      show (0 : Nat) < tm
      exact Nat.pos_of_ne_zero hne
    · intro a ha
      cases ha
  obtain ⟨em, T2, cur2, popped, heval, hdec, hfa, hinv2, hfin⟩ :=
    feedAll_ok t.array.shape.dropLast (List.zip t.irreps (listOf t)) (Accum.cnt 0)
      (skipZeros I).2 hsrc hexp0 hinv0
  have hT2 : T2 = [] := by
    cases hT : T2 with
    | nil => rfl
    | cons head Tr =>
      obtain ⟨tm, ti⟩ := head
      exfalso
      rw [hT] at hinv2 hfin
      have hhd := hinv2.1 tm ti Tr rfl
      rw [List.drop_eq_nil_iff] at hfin
      simp only [expandIr_cons, List.length_append, List.length_replicate] at hfin
      omega
  subst hT2
  have hcur2 : cur2 = Accum.cnt 0 := hinv2.2.2 rfl
  subst hcur2
  have hlem : em.length = popped.length := hfa.length_eq
  have hIdec : I = zs0 ++ popped := by
    rw [hI0, hdec]
    simp
  have hnewlen : ((skipZeros I).1 ++ em).length = I.length := by
    rw [List.length_append, hfst0, List.length_map, hlem, hIdec, List.length_append]
  have hfa2 : List.Forall₂ (BlockShaped t.array.shape.dropLast) ((skipZeros I).1 ++ em) I := by
    conv_rhs => rw [hIdec]
    rw [hfst0]
    exact forall2_append_my
      (forall2_map_none (fun mi b hb => Option.noConfusion hb) zs0) hfa
  have hchecks : checksOk I t.array (some ((skipZeros I).1 ++ em)) = true := by
    apply checks_intro
    · obtain ⟨hg, _⟩ := checks_unpack _ _ _ hc
      rw [hg, dim_eq_of_simplify_eq hs]
    · intro l hl
      injection hl with hl2
      rw [← hl2]
      exact ⟨hnewlen, hfa2⟩
  have hfa3 : List.Forall₂ (fun x mi => convShapeOk x mi = true) ((skipZeros I).1 ++ em) I := by
    refine hfa2.imp ?_
    intro x mi hx
    cases x with
    | none => rfl
    | some a =>
      have hsh := hx a rfl
      obtain ⟨h1, h2, _⟩ := shape2_facts a _ _ _ hsh
      simp only [convShapeOk, decide_eq_true_eq]
      exact ⟨h1, h2⟩
  have hall := (all_zip_iff_forall2 convShapeOk _ _ hnewlen).mpr hfa3
  refine ⟨⟨I, t.array, some ((skipZeros I).1 ++ em)⟩, ?_, rfl, rfl, hchecks⟩
  unfold convertT
  rw [if_neg (not_not_intro hs)]
  simp only [heval]
  rw [if_neg (not_not_intro rfl)]
  rw [if_neg (not_not_intro hnewlen)]
  rw [if_neg (not_not_intro hall)]
  unfold mkChecked
  rw [if_pos hchecks]

/-- C1: for every well-formed typed tensor `t` and every target spec whose
simplification agrees with that of `t.irreps`, `convert` succeeds and
returns a tensor carrying the very same buffer (the buffer is reused, never
rebuilt), and consequently converting back to `t.irreps` succeeds and again
yields a tensor whose buffer equals `t`'s buffer element-wise. -/
theorem c1_convert_roundtrip (t : IrrepsArray) (I : Irreps) (hw : WF t)
    (hs : simplifyI t.irreps = simplifyI I) :
    ∃ u v, convertT t I = some u ∧ u.array = t.array ∧ u.irreps = I ∧
      convertT u t.irreps = some v ∧ v.array = t.array ∧ v.irreps = t.irreps := by
  obtain ⟨hc, _, _⟩ := hw
  obtain ⟨u, hu, hui, hua, huc⟩ := convertT_ok t I hc hs
  obtain ⟨v, hv, hvi, hva, _⟩ := convertT_ok u t.irreps huc (by rw [hui, ← hs])
  exact ⟨u, v, hu, hua, hui, hv, by rw [hva, hua], hvi⟩

theorem c1_witness :
    (convertT tCvt [(1, Ir0e), (1, Ir0e)]).map (fun r => r.array) = some tCvt.array ∧
    ((convertT tCvt [(1, Ir0e), (1, Ir0e)]).bind
      (fun u => convertT u tCvt.irreps)).map (fun r => r.array) = some tCvt.array := by
  obtain ⟨u, v, hu, hua, _, hv, hva, _⟩ :=
    c1_convert_roundtrip tCvt [(1, Ir0e), (1, Ir0e)] (by decide) (by decide)
  constructor
  · rw [hu, Option.map_some', hua]
  · rw [hu]
    show (convertT u tCvt.irreps).map (fun r => r.array) = some tCvt.array
    rw [hv, Option.map_some', hva]

/-! ## Chunking and per-row concatenation lemmas (for the block view) -/

theorem chunkAux_congr (k : Nat) (hk : k ≠ 0) :
    ∀ (f1 : Nat) (l : List ℚ) (f2 : Nat), l.length ≤ f1 → l.length ≤ f2 →
      chunkAux k f1 l = chunkAux k f2 l := by
  intro f1
  induction f1 with
  | zero =>
    intro l f2 h1 _
    have hl : l = [] := List.eq_nil_of_length_eq_zero (by omega)
    subst hl
    cases f2 <;> rfl
  | succ g ih =>
    intro l f2 h1 h2
    cases l with
    | nil => cases f2 <;> rfl
    | cons x xs =>
      cases f2 with
      | zero => simp at h2
      | succ g2 =>
        show (x :: xs).take k :: chunkAux k g ((x :: xs).drop k) =
          (x :: xs).take k :: chunkAux k g2 ((x :: xs).drop k)
        have hd : ((x :: xs).drop k).length ≤ g := by
          simp only [List.length_drop, List.length_cons] at *
          omega
        have hd2 : ((x :: xs).drop k).length ≤ g2 := by
          simp only [List.length_drop, List.length_cons] at *
          omega
        rw [ih _ _ hd hd2]

theorem chunk_nil (k : Nat) : chunk k [] = [] := by
  unfold chunk
  by_cases hk : k = 0
  · rw [if_pos hk]
  · rw [if_neg hk]
    rfl

theorem chunk_eq (k : Nat) (l : List ℚ) (hk : k ≠ 0) (hl : l ≠ []) :
    chunk k l = l.take k :: chunk k (l.drop k) := by
  cases l with
  | nil => exact absurd rfl hl
  | cons x xs =>
    have h1 : chunk k (x :: xs) = chunkAux k (x :: xs).length (x :: xs) := by
      unfold chunk
      rw [if_neg hk]
    have h2 : chunk k ((x :: xs).drop k) =
        chunkAux k ((x :: xs).drop k).length ((x :: xs).drop k) := by
      unfold chunk
      rw [if_neg hk]
    rw [h1, h2]
    show (x :: xs).take k :: chunkAux k xs.length ((x :: xs).drop k) = _
    have hd : ((x :: xs).drop k).length ≤ xs.length := by
      simp only [List.length_drop, List.length_cons]
      omega
    rw [chunkAux_congr k hk xs.length _ _ hd (le_refl _)]

theorem chunk_flatten_aux (k : Nat) (hk : k ≠ 0) :
    ∀ (n : Nat) (l : List ℚ), l.length ≤ n → (chunk k l).flatten = l := by
  intro n
  induction n with
  | zero =>
    intro l h
    have hl : l = [] := List.eq_nil_of_length_eq_zero (by omega)
    subst hl
    rw [chunk_nil]
    rfl
  | succ g ih =>
    intro l h
    by_cases hl : l = []
    · subst hl
      rw [chunk_nil]
      rfl
    · rw [chunk_eq k l hk hl, List.flatten_cons]
      have hd : (l.drop k).length ≤ g := by
        have hlp : 0 < l.length := List.length_pos.mpr hl
        simp only [List.length_drop]
        omega
      rw [ih _ hd, List.take_append_drop]

theorem chunk_flatten (k : Nat) (l : List ℚ) (hk : k ≠ 0) : (chunk k l).flatten = l :=
  chunk_flatten_aux k hk l.length l (le_refl _)

theorem chunk_uniform (k : Nat) (hk : k ≠ 0) :
    ∀ (L : Nat) (l : List ℚ), l.length = L * k →
      (chunk k l).length = L ∧ ∀ r ∈ chunk k l, r.length = k := by
  intro L
  induction L with
  | zero =>
    intro l h
    have hl : l = [] := List.eq_nil_of_length_eq_zero (by omega)
    subst hl
    rw [chunk_nil]
    exact ⟨rfl, by simp⟩
  | succ g ih =>
    intro l h
    have hlp : l ≠ [] := by
      intro hc
      subst hc
      simp at h
      omega
    rw [chunk_eq k l hk hlp]
    have hdl : (l.drop k).length = g * k := by
      simp only [List.length_drop]
      have : l.length = (g + 1) * k := h
      have hkk : k ≤ l.length := by
        rw [this]
        have : (g + 1) * k = g * k + k := by ring
        omega
      rw [h]
      have : (g + 1) * k = g * k + k := by ring
      omega
    obtain ⟨ihl, ihr⟩ := ih (l.drop k) hdl
    refine ⟨by simp [ihl], ?_⟩
    intro r hr
    rcases List.mem_cons.mp hr with h1 | h2
    · rw [h1, List.length_take]
      have : k ≤ l.length := by
        rw [h]
        have : (g + 1) * k = g * k + k := by ring
        omega
      omega
    · exact ihr r h2

theorem chunk_flatten_uniform (k : Nat) (hk : k ≠ 0) :
    ∀ rows : List (List ℚ), (∀ r ∈ rows, r.length = k) → chunk k rows.flatten = rows := by
  intro rows
  induction rows with
  | nil =>
    intro _
    exact chunk_nil k
  | cons r rest ih =>
    intro hrows
    have hrk : r.length = k := hrows r (List.mem_cons_self _ _)
    have hne : (r :: rest).flatten ≠ [] := by
      rw [List.flatten_cons]
      intro hc
      have := congrArg List.length hc
      simp only [List.length_append, List.length_nil] at this
      omega
    have ht : (r ++ rest.flatten).take k = r := by
      rw [← hrk]
      exact List.take_left _ _
    have hd : (r ++ rest.flatten).drop k = rest.flatten := by
      rw [← hrk]
      exact List.drop_left _ _
    rw [List.flatten_cons] at hne ⊢
    rw [chunk_eq k _ hk hne, ht, hd]
    rw [ih (fun q hq => hrows q (List.mem_cons_of_mem _ hq))]

theorem rowsPad_props (a : Arr) (X : List Nat) (w : Nat) (hsh : a.shape = X ++ [w])
    (hwf : ArrWf a) :
    (rowsPad X.prod a).length = X.prod ∧ (∀ r ∈ rowsPad X.prod a, r.length = w) ∧
      (rowsPad X.prod a).flatten = a.data := by
  have hld : lastD a = w := by
    rw [lastD, hsh, List.getLastD_concat]
  have hdl : a.data.length = X.prod * w := by
    rw [hwf, hsh, List.prod_append]
    simp
  by_cases hw : w = 0
  · subst hw
    have hpad : rowsPad X.prod a = List.replicate X.prod [] := by
      unfold rowsPad
      rw [hld, if_pos rfl]
    have hdata : a.data = [] := List.eq_nil_of_length_eq_zero (by omega)
    rw [hpad, hdata]
    refine ⟨List.length_replicate _ _, ?_, by simp⟩
    intro r hr
    rw [List.eq_of_mem_replicate hr]
    rfl
  · have hpad : rowsPad X.prod a = chunk w a.data := by
      unfold rowsPad
      rw [hld, if_neg hw]
    obtain ⟨hu1, hu2⟩ := chunk_uniform w hw X.prod a.data hdl
    rw [hpad]
    exact ⟨hu1, hu2, chunk_flatten w a.data hw⟩

theorem rowsConc_length (L : Nat) :
    ∀ as : List Arr, (∀ a ∈ as, (rowsPad L a).length = L) → (rowsConc L as).length = L := by
  intro as
  induction as with
  | nil =>
    intro _
    exact List.length_replicate _ _
  | cons a rest ih =>
    intro has
    show (List.zipWith (· ++ ·) (rowsPad L a) (rowsConc L rest)).length = L
    rw [List.length_zipWith, has a (List.mem_cons_self _ _),
      ih (fun q hq => has q (List.mem_cons_of_mem _ hq))]
    simp

theorem rowsConc_rowlen (L : Nat) :
    ∀ as : List Arr,
      (∀ a ∈ as, (rowsPad L a).length = L ∧ ∀ r ∈ rowsPad L a, r.length = lastD a) →
      ∀ r ∈ rowsConc L as, r.length = (as.map lastD).sum := by
  intro as
  induction as with
  | nil =>
    intro _ r hr
    rw [List.eq_of_mem_replicate hr]
    rfl
  | cons a rest ih =>
    intro has r hr
    have hr2 : r ∈ List.zipWith (· ++ ·) (rowsPad L a) (rowsConc L rest) := hr
    obtain ⟨i, hi, hget⟩ := List.mem_iff_getElem.mp hr2
    rw [List.getElem_zipWith] at hget
    have hi1 : i < (rowsPad L a).length := by
      rw [List.length_zipWith] at hi
      omega
    have hi2 : i < (rowsConc L rest).length := by
      rw [List.length_zipWith] at hi
      omega
    rw [← hget]
    simp only [List.map_cons, List.sum_cons, List.length_append]
    rw [(has a (List.mem_cons_self _ _)).2 _ (List.getElem_mem hi1),
      ih (fun q hq => has q (List.mem_cons_of_mem _ hq)) _ (List.getElem_mem hi2)]

theorem zip_take_head (w : Nat) :
    ∀ (l1 l2 : List (List ℚ)), (∀ r ∈ l1, r.length = w) → l1.length = l2.length →
      List.map (fun row => List.take w row) (List.zipWith (· ++ ·) l1 l2) = l1 := by
  intro l1
  induction l1 with
  | nil =>
    intro l2 _ _
    simp
  | cons r1 rest1 ih =>
    intro l2 hr hl
    cases l2 with
    | nil => simp at hl
    | cons r2 rest2 =>
      simp only [List.zipWith_cons_cons, List.map_cons]
      have hr1 : r1.length = w := hr r1 (List.mem_cons_self _ _)
      have hhead : List.take w (r1 ++ r2) = r1 := by
        rw [← hr1]
        exact List.take_left _ _
      rw [hhead, ih rest2 (fun q hq => hr q (List.mem_cons_of_mem _ hq)) (by simpa using hl)]

theorem zip_slice_tail (w o q : Nat) :
    ∀ (l1 l2 : List (List ℚ)), (∀ r ∈ l1, r.length = w) → l1.length = l2.length →
      List.map (fun row => (List.take (w + q) row).drop (w + o))
        (List.zipWith (· ++ ·) l1 l2) =
        List.map (fun row => (List.take q row).drop o) l2 := by
  intro l1
  induction l1 with
  | nil =>
    intro l2 _ hl
    have : l2 = [] := by
      cases l2 with
      | nil => rfl
      | cons x xs => simp at hl
    subst this
    simp
  | cons r1 rest1 ih =>
    intro l2 hr hl
    cases l2 with
    | nil => simp at hl
    | cons r2 rest2 =>
      simp only [List.zipWith_cons_cons, List.map_cons]
      have hr1 : r1.length = w := hr r1 (List.mem_cons_self _ _)
      have hhead : (List.take (w + q) (r1 ++ r2)).drop (w + o) = (List.take q r2).drop o := by
        rw [← hr1, List.take_append, List.drop_append]
      rw [hhead, ih rest2 (fun p hp => hr p (List.mem_cons_of_mem _ hp)) (by simpa using hl)]

theorem slice_rowsConc (L : Nat) :
    ∀ (as : List Arr) (jb : Nat),
      (∀ a ∈ as, (rowsPad L a).length = L ∧ ∀ r ∈ rowsPad L a, r.length = lastD a) →
      jb < as.length →
      ((rowsConc L as).map (fun row =>
        (row.take ((((as.take jb).map lastD).sum) + lastD (as.getD jb default))).drop
          (((as.take jb).map lastD).sum))).flatten =
        (rowsPad L (as.getD jb default)).flatten := by
  intro as
  induction as with
  | nil =>
    intro jb _ hjb
    simp at hjb
  | cons a rest ih =>
    intro jb has hjb
    cases jb with
    | zero =>
      simp only [List.take_zero, List.map_nil, List.sum_nil, List.getD_cons_zero,
        Nat.zero_add, List.drop_zero]
      show ((List.zipWith (· ++ ·) (rowsPad L a) (rowsConc L rest)).map
        (fun row => List.take (lastD a) row)).flatten = _
      rw [zip_take_head (lastD a) (rowsPad L a) (rowsConc L rest)
        (has a (List.mem_cons_self _ _)).2
        (by rw [(has a (List.mem_cons_self _ _)).1,
          rowsConc_length L rest (fun q hq => (has q (List.mem_cons_of_mem _ hq)).1)])]
    | succ j =>
      simp only [List.take_succ_cons, List.map_cons, List.sum_cons, List.getD_cons_succ]
      show ((List.zipWith (· ++ ·) (rowsPad L a) (rowsConc L rest)).map
        (fun row => (row.take (lastD a + ((rest.take j).map lastD).sum +
          lastD (rest.getD j default))).drop
          (lastD a + ((rest.take j).map lastD).sum))).flatten = _
      simp only [Nat.add_assoc]
      rw [zip_slice_tail (lastD a) (((rest.take j).map lastD).sum)
        (((rest.take j).map lastD).sum + lastD (rest.getD j default))
        (rowsPad L a) (rowsConc L rest)
        (has a (List.mem_cons_self _ _)).2
        (by rw [(has a (List.mem_cons_self _ _)).1,
          rowsConc_length L rest (fun p hp => (has p (List.mem_cons_of_mem _ hp)).1)])]
      exact ih j (fun p hp => has p (List.mem_cons_of_mem _ hp)) (by simpa using hjb)

theorem zerosArr_wf (s : List Nat) : ArrWf (zerosArr s) := List.length_replicate _ _

theorem zip_append_nil : ∀ (rows : List (List ℚ)) (L : Nat), rows.length = L →
    List.zipWith (· ++ ·) rows (List.replicate L []) = rows := by
  intro rows
  induction rows with
  | nil => intro L _; simp
  | cons r rest ih =>
    intro L hL
    cases L with
    | zero => simp at hL
    | succ g =>
      rw [List.replicate_succ, List.zipWith_cons_cons, List.append_nil,
        ih g (by simpa using hL)]

theorem offsetList_getD : ∀ (I : Irreps) (o jb : Nat), jb < I.length →
    (offsetList I o).getD jb default =
      (o + ((I.take jb).map (fun mi => mi.1 * irDim mi.2)).sum, I.getD jb default) := by
  intro I
  induction I with
  | nil => intro o jb h; simp at h
  | cons mi rest ih =>
    intro o jb h
    cases jb with
    | zero =>
      show ((o, mi) :: offsetList rest (o + mi.1 * irDim mi.2)).getD 0 default = _
      rw [List.getD_cons_zero, List.getD_cons_zero]
      simp
    | succ j =>
      show ((o, mi) :: offsetList rest (o + mi.1 * irDim mi.2)).getD (j + 1) default = _
      rw [List.getD_cons_succ, List.getD_cons_succ,
        ih (o + mi.1 * irDim mi.2) j (by simpa using h)]
      simp only [List.take_succ_cons, List.map_cons, List.sum_cons]
      rw [Nat.add_assoc]

theorem fromBlockComp_shape (leading : List Nat) (q : MulIr × Option Arr) :
    (fromBlockComp leading q).shape = leading ++ [q.1.1 * irDim q.1.2] := by
  unfold fromBlockComp
  cases q.2 <;> rfl

theorem fromBlockComp_lastD (leading : List Nat) (q : MulIr × Option Arr) :
    lastD (fromBlockComp leading q) = q.1.1 * irDim q.1.2 := by
  rw [lastD, fromBlockComp_shape, List.getLastD_concat]

theorem fromBlockComp_wf (leading : List Nat) (q : MulIr × Option Arr)
    (hbs : BlockShaped leading q.2 q.1)
    (hq : ∀ a, q.2 = some a → ArrWf a) : ArrWf (fromBlockComp leading q) := by
  unfold fromBlockComp
  cases hq2 : q.2 with
  | none => exact zerosArr_wf _
  | some a =>
    show a.data.length = (leading ++ [q.1.1 * irDim q.1.2]).prod
    rw [hq a hq2, hbs a hq2]
    rw [List.prod_append, List.prod_append]
    simp only [List.prod_cons, List.prod_nil]
    ring

theorem fromBlockComp_data_of_some (leading : List Nat) (q : MulIr × Option Arr) (a : Arr)
    (hq : q.2 = some a) : (fromBlockComp leading q).data = a.data := by
  unfold fromBlockComp
  rw [hq]

theorem comps_lastD (leading : List Nat) (I : Irreps) (bl : List (Option Arr))
    (hlen : I.length = bl.length) :
    ((List.zip I bl).map (fromBlockComp leading)).map lastD =
      I.map (fun mi => mi.1 * irDim mi.2) := by
  rw [List.map_map]
  rw [List.map_congr_left (fun p _ => by
    show lastD (fromBlockComp leading p) = p.1.1 * irDim p.1.2
    exact fromBlockComp_lastD leading p)]
  rw [show (fun p : MulIr × Option Arr => p.1.1 * irDim p.1.2) =
    ((fun mi : MulIr => mi.1 * irDim mi.2) ∘ Prod.fst) from rfl]
  rw [← List.map_map]
  rw [List.map_fst_zip I bl (le_of_eq hlen)]

theorem from_list_inv (I : Irreps) (bl : List (Option Arr)) (leading : List Nat)
    (t : IrrepsArray) (ht : from_list I bl leading = some t) :
    I.length = bl.length ∧ List.Forall₂ (BlockShaped leading) bl I ∧
    t.irreps = I ∧ t.blocks? = some bl ∧
    t.array = (if 0 < irrepsDim I then
        concatLastA leading ((List.zip I bl).map (fromBlockComp leading))
      else zerosArr (leading ++ [0])) := by
  unfold from_list at ht
  by_cases h1 : I.length ≠ bl.length
  · rw [if_pos h1] at ht
    cases ht
  · rw [if_neg h1] at ht
    have hlen : I.length = bl.length := not_ne_iff.mp h1
    by_cases h2 : ((List.zip bl I).all fun p => blockShapeOkB leading p.1 p.2) = true
    · rw [if_neg (not_not_intro h2)] at ht
      have h3 := mkChecked_inv ht
      refine ⟨hlen,
        ((all_zip_iff_forall2 _ _ _ hlen.symm).mp h2).imp
          (fun x mi hx => (blockShapeOkB_iff _ _ _).mp hx),
        by rw [h3], by rw [h3], by rw [h3]; rfl⟩
    · rw [if_pos h2] at ht
      cases ht

theorem slice_data_eq (leading : List Nat) (I : Irreps) (bl : List (Option Arr))
    (hlen : I.length = bl.length)
    (hsh : List.Forall₂ (BlockShaped leading) bl I)
    (hwf : ∀ x ∈ bl, ∀ a, x = some a → ArrWf a)
    (hdim : 0 < irrepsDim I)
    (jb : Nat) (hjb : jb < I.length) (a : Arr)
    (ha : bl.getD jb none = some a) :
    sliceBlock (concatLastA leading ((List.zip I bl).map (fromBlockComp leading)))
      (((I.take jb).map (fun mi => mi.1 * irDim mi.2)).sum)
      (I.getD jb default).1 (irDim (I.getD jb default).2) = a := by
  have hjbb : jb < bl.length := by rw [← hlen]; exact hjb
  have hclen : ((List.zip I bl).map (fromBlockComp leading)).length = I.length := by
    rw [List.length_map, List.length_zip, hlen]
    simp
  have hWmap : (((List.zip I bl).map (fromBlockComp leading)).map lastD) =
      I.map (fun mi => mi.1 * irDim mi.2) := comps_lastD leading I bl hlen
  have hW : ((((List.zip I bl).map (fromBlockComp leading)).map lastD)).sum = irrepsDim I := by
    rw [hWmap]
    rfl
  have hW0 : ((((List.zip I bl).map (fromBlockComp leading)).map lastD)).sum ≠ 0 := by
    omega
  have hprops : ∀ c ∈ (List.zip I bl).map (fromBlockComp leading),
      (rowsPad leading.prod c).length = leading.prod ∧
      ∀ r ∈ rowsPad leading.prod c, r.length = lastD c := by
    intro c hc
    obtain ⟨q, hq, hgq⟩ := List.mem_map.mp hc
    obtain ⟨q1, q2⟩ := q
    have hbsq : BlockShaped leading q2 q1 := forall2_zip_mem hsh (q1, q2) hq
    have hwfq : ∀ b, q2 = some b → ArrWf b :=
      fun b hb => hwf q2 (List.of_mem_zip hq).2 b hb
    have hcw := fromBlockComp_wf leading (q1, q2) hbsq hwfq
    have hcs := fromBlockComp_shape leading (q1, q2)
    rw [← hgq]
    have hr := rowsPad_props (fromBlockComp leading (q1, q2)) leading
      (q1.1 * irDim q1.2) hcs hcw
    refine ⟨hr.1, ?_⟩
    intro r hrr
    rw [fromBlockComp_lastD]
    exact hr.2.1 r hrr
  have hjbz : jb < (List.zip I bl).length := by
    rw [List.length_zip]
    omega
  have hcompjb : ((List.zip I bl).map (fromBlockComp leading)).getD jb default =
      fromBlockComp leading (I.getD jb default, bl.getD jb none) := by
    rw [List.getD_eq_getElem _ _ (by rw [List.length_map]; exact hjbz)]
    rw [List.getElem_map, List.getElem_zip]
    rw [List.getD_eq_getElem I default hjb, List.getD_eq_getElem bl none hjbb]
  have hbsjb : BlockShaped leading (bl.getD jb none) (I.getD jb default) := by
    obtain ⟨hlen2, hget⟩ := List.forall₂_iff_get.mp hsh
    have hg := hget jb hjbb hjb
    rw [List.getD_eq_getElem bl none hjbb, List.getD_eq_getElem I default hjb]
    exact hg
  have hash : a.shape =
      leading ++ [(I.getD jb default).1, irDim (I.getD jb default).2] := hbsjb a ha
  have hawf : ArrWf a := by
    refine hwf (bl.getD jb none) ?_ a ha
    rw [List.getD_eq_getElem bl none hjbb]
    exact List.getElem_mem hjbb
  have hshapeD : (concatLastA leading ((List.zip I bl).map (fromBlockComp leading))).shape.dropLast =
      leading := by
    show (leading ++
      [((((List.zip I bl).map (fromBlockComp leading)).map lastD)).sum]).dropLast = leading
    exact List.dropLast_concat
  have hlastD : lastD (concatLastA leading ((List.zip I bl).map (fromBlockComp leading))) =
      ((((List.zip I bl).map (fromBlockComp leading)).map lastD)).sum := by
    show (leading ++
      [((((List.zip I bl).map (fromBlockComp leading)).map lastD)).sum]).getLastD 0 = _
    exact List.getLastD_concat _ _ _
  have hoff : ((I.take jb).map (fun mi => mi.1 * irDim mi.2)).sum =
      ((((List.zip I bl).map (fromBlockComp leading)).take jb).map lastD).sum := by
    rw [List.map_take, List.map_take, hWmap]
  have hwidth : (I.getD jb default).1 * irDim (I.getD jb default).2 =
      lastD (((List.zip I bl).map (fromBlockComp leading)).getD jb default) := by
    rw [hcompjb, fromBlockComp_lastD]
  have hchunk : chunk (lastD (concatLastA leading ((List.zip I bl).map (fromBlockComp leading))))
      (concatLastA leading ((List.zip I bl).map (fromBlockComp leading))).data =
      rowsConc leading.prod ((List.zip I bl).map (fromBlockComp leading)) := by
    rw [hlastD]
    show chunk _ (rowsConc leading.prod ((List.zip I bl).map (fromBlockComp leading))).flatten = _
    apply chunk_flatten_uniform _ hW0
    intro r hr
    exact rowsConc_rowlen leading.prod _ hprops r hr
  have hjbc : jb < ((List.zip I bl).map (fromBlockComp leading)).length := by omega
  have hslice := slice_rowsConc leading.prod ((List.zip I bl).map (fromBlockComp leading))
    jb hprops hjbc
  unfold sliceBlock
  have hfinshape : (concatLastA leading
      ((List.zip I bl).map (fromBlockComp leading))).shape.dropLast ++
      [(I.getD jb default).1, irDim (I.getD jb default).2] = a.shape := by
    rw [hshapeD, hash]
  have hfindata : ((chunk
      (lastD (concatLastA leading ((List.zip I bl).map (fromBlockComp leading))))
      (concatLastA leading ((List.zip I bl).map (fromBlockComp leading))).data).map
        (fun row =>
          (row.take (((I.take jb).map (fun mi => mi.1 * irDim mi.2)).sum +
            (I.getD jb default).1 * irDim (I.getD jb default).2)).drop
            (((I.take jb).map (fun mi => mi.1 * irDim mi.2)).sum))).flatten = a.data := by
    rw [hchunk, hoff, hwidth, hslice, hcompjb]
    have hcs := fromBlockComp_shape leading (I.getD jb default, bl.getD jb none)
    have hcw := fromBlockComp_wf leading (I.getD jb default, bl.getD jb none) hbsjb
      (fun b hb => hwf (bl.getD jb none)
        (by rw [List.getD_eq_getElem bl none hjbb]; exact List.getElem_mem hjbb) b hb)
    rw [(rowsPad_props _ leading _ hcs hcw).2.2,
      fromBlockComp_data_of_some leading _ a ha]
  rw [hfinshape, hfindata]

theorem derive_matches_stored (I : Irreps) (bl : List (Option Arr)) (leading : List Nat)
    (t : IrrepsArray) (ht : from_list I bl leading = some t)
    (hwf : ∀ x ∈ bl, ∀ a, x = some a → ArrWf a) :
    List.Forall₂ (fun dx sx => ∀ a, sx = some a → dx = some a) (deriveList t) bl := by
  obtain ⟨hlen, hsh, hti, htb, hta⟩ := from_list_inv I bl leading t ht
  cases I with
  | nil =>
    have hbl : bl = [] := List.eq_nil_of_length_eq_zero hlen.symm
    subst hbl
    have hder : deriveList t = [] := by
      unfold deriveList
      rw [hti]
      rfl
    rw [hder]
    exact List.Forall₂.nil
  | cons hd rest0 =>
    obtain ⟨m, i⟩ := hd
    cases rest0 with
    | nil =>
      obtain ⟨x, hblx⟩ : ∃ x, bl = [x] := by
        cases bl with
        | nil => simp at hlen
        | cons x rest =>
          cases rest with
          | nil => exact ⟨x, rfl⟩
          | cons y r => simp at hlen
      subst hblx
      cases hsh with
      | cons hx hnil =>
        have hder : deriveList t =
            [some ⟨t.array.shape.dropLast ++ [m, irDim i], t.array.data⟩] := by
          unfold deriveList
          rw [hti]
        rw [hder]
        refine List.Forall₂.cons ?_ List.Forall₂.nil
        intro a hxa
        have hash : a.shape = leading ++ [m, irDim i] := hx a hxa
        have hawf : ArrWf a := hwf x (List.mem_cons_self _ _) a hxa
        by_cases hdim : 0 < irrepsDim [(m, i)]
        · rw [if_pos hdim] at hta
          have hirr : irrepsDim [(m, i)] = m * irDim i := by
            simp [irrepsDim]
          have hcs : (fromBlockComp leading ((m, i), x)).shape =
              leading ++ [m * irDim i] := fromBlockComp_shape leading ((m, i), x)
          have hcw : ArrWf (fromBlockComp leading ((m, i), x)) :=
            fromBlockComp_wf leading ((m, i), x) hx
              (fun b hb => hwf x (List.mem_cons_self _ _) b hb)
          have hcd : (fromBlockComp leading ((m, i), x)).data = a.data :=
            fromBlockComp_data_of_some leading ((m, i), x) a hxa
          have hr := rowsPad_props (fromBlockComp leading ((m, i), x)) leading
            (m * irDim i) hcs hcw
          have hdata : t.array.data = (fromBlockComp leading ((m, i), x)).data := by
            rw [hta]
            show (List.zipWith (· ++ ·)
              (rowsPad leading.prod (fromBlockComp leading ((m, i), x)))
              (List.replicate leading.prod [])).flatten = _
            rw [zip_append_nil _ leading.prod hr.1]
            exact hr.2.2
          have hshape2 : t.array.shape.dropLast = leading := by
            rw [hta]
            show (leading ++
              [(([fromBlockComp leading ((m, i), x)]).map lastD).sum]).dropLast = leading
            exact List.dropLast_concat
          show some (⟨t.array.shape.dropLast ++ [m, irDim i], t.array.data⟩ : Arr) = some a
          rw [hshape2, hdata, hcd, ← hash]
        · rw [if_neg hdim] at hta
          have hirr : irrepsDim [(m, i)] = m * irDim i := by
            simp [irrepsDim]
          have hmd0 : m * irDim i = 0 := by omega
          have hadata : a.data = [] := by
            apply List.eq_nil_of_length_eq_zero
            rw [hawf, hash, List.prod_append]
            simp only [List.prod_cons, List.prod_nil]
            have hz : m * (irDim i * 1) = 0 := by
              rw [Nat.mul_one]
              exact hmd0
            rw [hz, Nat.mul_zero]
          have hdata : t.array.data = [] := by
            rw [hta]
            simp [zerosArr, List.prod_append]
          have hshape2 : t.array.shape.dropLast = leading := by
            rw [hta]
            show ((leading ++ [0] : List Nat)).dropLast = leading
            exact List.dropLast_concat
          show some (⟨t.array.shape.dropLast ++ [m, irDim i], t.array.data⟩ : Arr) = some a
          rw [hshape2, hdata, ← hadata, ← hash]
    | cons mi2 rest =>
      have hder : deriveList t = (offsetList ((m, i) :: mi2 :: rest) 0).map
          (fun p => some (sliceBlock t.array p.1 p.2.1 (irDim p.2.2))) := by
        unfold deriveList
        rw [hti]
      rw [hder]
      apply List.forall₂_iff_get.mpr
      refine ⟨by rw [List.length_map, offsetList_length]; exact hlen, ?_⟩
      intro jb h1 h2
      intro a ha
      have hjbI : jb < ((m, i) :: mi2 :: rest).length := by
        rw [hlen]
        exact h2
      have ha' : ((m, i) :: mi2 :: rest) = ((m, i) :: mi2 :: rest) := rfl
      have hget1 : (((offsetList ((m, i) :: mi2 :: rest) 0)).map
          (fun p => some (sliceBlock t.array p.1 p.2.1 (irDim p.2.2)))).get ⟨jb, h1⟩ =
          some (sliceBlock t.array
            (((offsetList ((m, i) :: mi2 :: rest) 0)).getD jb default).1
            (((offsetList ((m, i) :: mi2 :: rest) 0)).getD jb default).2.1
            (irDim (((offsetList ((m, i) :: mi2 :: rest) 0)).getD jb default).2.2)) := by
        rw [List.get_eq_getElem, List.getElem_map,
          ← List.getD_eq_getElem _ default (by rw [offsetList_length]; exact hjbI)]
      rw [hget1, offsetList_getD ((m, i) :: mi2 :: rest) 0 jb hjbI]
      have hblgd : bl.getD jb none = some a := by
        rw [List.getD_eq_getElem bl none h2]
        exact ha
      by_cases hdim : 0 < irrepsDim ((m, i) :: mi2 :: rest)
      · rw [if_pos hdim] at hta
        rw [hta]
        have hmain := slice_data_eq leading ((m, i) :: mi2 :: rest) bl hlen hsh hwf hdim
          jb hjbI a hblgd
        simp only [Nat.zero_add]
        rw [hmain]
      · rw [if_neg hdim] at hta
        have hdim0 : irrepsDim ((m, i) :: mi2 :: rest) = 0 := by omega
        have hmem : (((m, i) :: mi2 :: rest).getD jb default) ∈ ((m, i) :: mi2 :: rest) := by
          rw [List.getD_eq_getElem _ default hjbI]
          exact List.getElem_mem hjbI
        have hmd0 : (((m, i) :: mi2 :: rest).getD jb default).1 *
            irDim (((m, i) :: mi2 :: rest).getD jb default).2 = 0 :=
          List.sum_eq_zero_iff.mp hdim0 _
            (List.mem_map_of_mem (fun mi => mi.1 * irDim mi.2) hmem)
        have hbsjb : BlockShaped leading (bl.getD jb none)
            (((m, i) :: mi2 :: rest).getD jb default) := by
          obtain ⟨hlen2, hget⟩ := List.forall₂_iff_get.mp hsh
          have hg := hget jb h2 hjbI
          rw [List.getD_eq_getElem bl none h2, List.getD_eq_getElem _ default hjbI]
          exact hg
        have hash : a.shape = leading ++ [(((m, i) :: mi2 :: rest).getD jb default).1,
            irDim (((m, i) :: mi2 :: rest).getD jb default).2] := hbsjb a hblgd
        have hawf : ArrWf a := by
          refine hwf (bl.getD jb none) ?_ a hblgd
          rw [List.getD_eq_getElem bl none h2]
          exact List.getElem_mem h2
        have hadata : a.data = [] := by
          apply List.eq_nil_of_length_eq_zero
          rw [hawf, hash, List.prod_append]
          simp only [List.prod_cons, List.prod_nil]
          have hz : (((m, i) :: mi2 :: rest).getD jb default).1 *
              (irDim (((m, i) :: mi2 :: rest).getD jb default).2 * 1) = 0 := by
            rw [Nat.mul_one]
            exact hmd0
          rw [hz, Nat.mul_zero]
        rw [hta]
        simp only [Nat.zero_add]
        have hld0 : lastD (zerosArr (leading ++ [0])) = 0 := by
          show (leading ++ [0]).getLastD 0 = 0
          exact List.getLastD_concat _ _ _
        unfold sliceBlock
        have hdd : ((chunk (lastD (zerosArr (leading ++ [0])))
            (zerosArr (leading ++ [0])).data).map (fun row =>
              (row.take ((((((m, i) :: mi2 :: rest).take jb).map
                (fun mi => mi.1 * irDim mi.2)).sum) +
                (((m, i) :: mi2 :: rest).getD jb default).1 *
                irDim (((m, i) :: mi2 :: rest).getD jb default).2)).drop
                (((((m, i) :: mi2 :: rest).take jb).map
                  (fun mi => mi.1 * irDim mi.2)).sum))).flatten = a.data := by
          rw [hld0]
          rw [show chunk 0 (zerosArr (leading ++ [0])).data = [] from rfl]
          rw [hadata]
          rfl
        have hds : (zerosArr (leading ++ [0])).shape.dropLast ++
            [(((m, i) :: mi2 :: rest).getD jb default).1,
              irDim (((m, i) :: mi2 :: rest).getD jb default).2] = a.shape := by
          show (leading ++ [0]).dropLast ++ _ = a.shape
          rw [List.dropLast_concat, hash]
        rw [hds, hdd]

/-- C2: rebuilding a typed tensor from its lazily derived block view
reproduces the buffer: for any spec, leading shape, and well-formed block
list accepted by `from_list`, feeding the resulting tensor's `list` property
back into `from_list` returns the very same tensor (in particular the same
buffer); and — invariant I3 — the buffer and the stored non-null blocks
represent the same numeric values: every entry of the view derived from the
buffer equals the corresponding stored block whenever that block is
non-null (`None` entries stand for zero blocks). -/
theorem c2_fromlist_blocksview (I : Irreps) (bl : List (Option Arr)) (leading : List Nat)
    (t : IrrepsArray) (ht : from_list I bl leading = some t)
    (hwf : ∀ x ∈ bl, ∀ a, x = some a → ArrWf a) :
    from_list I (listOf t) leading = some t ∧
    List.Forall₂ (fun dx sx => ∀ a, sx = some a → dx = some a) (deriveList t) bl := by
  obtain ⟨_, _, _, htb, _⟩ := from_list_inv I bl leading t ht
  have hlo : listOf t = bl := by
    unfold listOf
    rw [htb]
  exact ⟨by rw [hlo]; exact ht, derive_matches_stored I bl leading t ht hwf⟩

theorem c2_witness :
    from_list [(1, Ir0e), (1, Ir1e)]
      (listOf ⟨[(1, Ir0e), (1, Ir1e)], ⟨[4], [5, 0, 0, 0]⟩,
        some [some ⟨[1, 1], [5]⟩, none]⟩) [] =
      some ⟨[(1, Ir0e), (1, Ir1e)], ⟨[4], [5, 0, 0, 0]⟩,
        some [some ⟨[1, 1], [5]⟩, none]⟩ ∧
    (deriveList ⟨[(1, Ir0e), (1, Ir1e)], ⟨[4], [5, 0, 0, 0]⟩,
      some [some ⟨[1, 1], [5]⟩, none]⟩).getD 0 none = some ⟨[1, 1], [5]⟩ := by
  obtain ⟨h1, h2⟩ := c2_fromlist_blocksview [(1, Ir0e), (1, Ir1e)]
    [some ⟨[1, 1], [5]⟩, none] []
    ⟨[(1, Ir0e), (1, Ir1e)], ⟨[4], [5, 0, 0, 0]⟩, some [some ⟨[1, 1], [5]⟩, none]⟩
    (by decide)
    (by
      intro x hx a ha
      rcases List.mem_cons.mp hx with h | h
      · rw [h] at ha
        injection ha with ha2
        rw [← ha2]
        decide
      · rcases List.mem_cons.mp h with h2 | h2
        · rw [h2] at ha
          cases ha
        · simp at h2)
  refine ⟨h1, ?_⟩
  obtain ⟨hlenf, hgetf⟩ := List.forall₂_iff_get.mp h2
  have hb : (0 : Nat) < (deriveList ⟨[(1, Ir0e), (1, Ir1e)], ⟨[4], [5, 0, 0, 0]⟩,
      some [some ⟨[1, 1], [5]⟩, none]⟩).length := by
    rw [hlenf]
    decide
  rw [List.getD_eq_getElem _ none hb]
  exact hgetf 0 hb (by decide) _ rfl
